import Mathlib

/-!
Verification of the step-validation engine in `validation/validate.go` of the
gauge repository.  The Go source is embedded shallowly: pointers become
numeric identities, Go maps keyed by pointers become association lists keyed
by those identities, and the out-of-process runner becomes a response oracle.
-/

set_option maxHeartbeats 1000000

namespace GaugeValidation

/-- The protobuf enum `gauge_messages.StepValidateResponse_ErrorType` is an
integer-valued enumeration; we embed it as `Int`. -/
abbrev StepValidateResponse_ErrorType := Int

/-- `var invalidResponse gauge_messages.StepValidateResponse_ErrorType = -1`
(validate.go line 267). -/
def invalidResponse : StepValidateResponse_ErrorType := -1

/-- `gauge.Step` restricted to the fields read by validate.go:
`Value` (normalized step text, the cache key), `Args` (the Go code only reads
`len(s.Args)`, so we keep the length), `IsConcept`, `ConceptSteps` and
`Parent`.  The Go `Parent` field is a back-pointer to the invoking step, but
validate.go only ever reads `s.Parent.Value`, so we store that value-text
(`none` embeds a nil `Parent`).  `Id` stands for the Go pointer identity of
the step node. -/
inductive Step where
  | mk (Id : Nat) (Value : String) (Args : Nat) (IsConcept : Bool)
       (ConceptSteps : List Step) (Parent : Option String)

mutual
def Step.beq : Step → Step → Bool
  | .mk i1 v1 a1 ic1 cs1 p1, .mk i2 v2 a2 ic2 cs2 p2 =>
    i1 == i2 && v1 == v2 && a1 == a2 && ic1 == ic2 && Step.beqList cs1 cs2 && p1 == p2

def Step.beqList : List Step → List Step → Bool
  | [], [] => true
  | s :: ss, t :: ts => Step.beq s t && Step.beqList ss ts
  | _, _ => false
end

mutual
theorem Step.beq_iff : ∀ s t : Step, Step.beq s t = true ↔ s = t
  | .mk i1 v1 a1 ic1 cs1 p1, .mk i2 v2 a2 ic2 cs2 p2 => by
    simp only [Step.beq, Bool.and_eq_true, beq_iff_eq, Step.mk.injEq]
    constructor
    · rintro ⟨⟨⟨⟨⟨h1, h2⟩, h3⟩, h4⟩, h5⟩, h6⟩
      exact ⟨h1, h2, h3, h4, (Step.beqList_iff cs1 cs2).1 h5, h6⟩
    · rintro ⟨h1, h2, h3, h4, h5, h6⟩
      exact ⟨⟨⟨⟨⟨h1, h2⟩, h3⟩, h4⟩, (Step.beqList_iff cs1 cs2).2 h5⟩, h6⟩

theorem Step.beqList_iff : ∀ ss ts : List Step, Step.beqList ss ts = true ↔ ss = ts
  | [], [] => by simp [Step.beqList]
  | [], _ :: _ => by simp [Step.beqList]
  | _ :: _, [] => by simp [Step.beqList]
  | s :: ss, t :: ts => by
    simp only [Step.beqList, Bool.and_eq_true, List.cons.injEq]
    constructor
    · rintro ⟨h1, h2⟩
      exact ⟨(Step.beq_iff s t).1 h1, (Step.beqList_iff ss ts).1 h2⟩
    · rintro ⟨h1, h2⟩
      exact ⟨(Step.beq_iff s t).2 h1, (Step.beqList_iff ss ts).2 h2⟩
end

instance : DecidableEq Step := fun s t => decidable_of_iff _ (Step.beq_iff s t)

def Step.Id : Step → Nat
  | .mk i _ _ _ _ _ => i

def Step.Value : Step → String
  | .mk _ v _ _ _ _ => v

def Step.Args : Step → Nat
  | .mk _ _ a _ _ _ => a

def Step.IsConcept : Step → Bool
  | .mk _ _ _ ic _ _ => ic

def Step.ConceptSteps : Step → List Step
  | .mk _ _ _ _ cs _ => cs

def Step.Parent : Step → Option String
  | .mk _ _ _ _ _ p => p

/-- `gauge.Scenario` restricted to the fields read by validate.go:
its steps.  `Id` stands for the pointer identity of the scenario. -/
structure Scenario where
  Id : Nat
  Steps : List Step
deriving DecidableEq

/-- `gauge.Specification` restricted to the fields read by validate.go:
`FileName`, `Scenarios`, `Contexts`, `TearDownSteps`.  `Id` stands for the
pointer identity of the specification. -/
structure Specification where
  Id : Nat
  FileName : String
  Scenarios : List Scenario
  Contexts : List Step
  TearDownSteps : List Step
deriving DecidableEq

/-- A concept definition as far as validate.go reads it: only its defining
file name (`cpt.FileName`). -/
structure Concept where
  FileName : String
deriving DecidableEq

/-- Modelled from the spec: the Concept Dictionary is a "mapping from
concept-head text to its defining Step (and source file)"; `Search` looks a
concept up by step value-text.  (`gauge.ConceptDictionary` itself is outside
validate.go.)  We embed the dictionary as an association list from
concept-head text to the concept. -/
abbrev ConceptDictionary := List (String × Concept)

/-- Modelled from the spec: `ConceptDictionary.Search` returns the concept
whose head text matches, or nil when there is none. -/
def Search (cd : ConceptDictionary) (v : String) : Option Concept :=
  match cd with
  | [] => none
  | (k, c) :: rest => if k = v then some c else Search rest v

/-- The file name validate.go reads from `v.conceptsDictionary.Search(x)`:
the Go code dereferences the result without a nil check (it would panic on a
missing concept), so the `none` case is embedded as the empty string. -/
def SearchFileName (cd : ConceptDictionary) (v : String) : String :=
  match Search cd v with
  | some c => c.FileName
  | none => ""

/-- `StepValidationError` (validate.go lines 61-66): the offending step, the
message, the file the error is attributed to, and the runner's error type
(`none` embeds a nil `errorType` pointer). -/
structure StepValidationError where
  step : Step
  message : String
  fileName : String
  errorType : Option StepValidateResponse_ErrorType
deriving DecidableEq

/-- The wire message type of the runner's reply; validate.go only compares it
against `gauge_messages.Message_StepValidateResponse`. -/
inductive GaugeMessageType where
  | stepValidateResponse
  | other (n : Nat)
deriving DecidableEq

/-- The observable result of one `getResponseFromRunner` round-trip:
either a transport-level failure (Go: non-nil `err`), or a reply message
carrying a message type and the `StepValidateResponse` fields `IsValid` and
`ErrorType` (the latter both as the enum value and as its `.String()` name,
which the Go code renders into the message). -/
inductive RunnerReply where
  | transportError (message : String)
  | reply (messageType : GaugeMessageType) (isValid : Bool)
          (errorTypeName : String) (errorType : StepValidateResponse_ErrorType)
deriving DecidableEq

/-- The Runner Client boundary: a response oracle keyed by the request's
`StepText` and `NumberOfParameters` (the two fields validate.go puts in the
`StepValidateRequest`). -/
structure Runner where
  respond : String → Nat → RunnerReply

/-- Replace every underscore by a space (Go: `strings.Replace(m, "_", " ", -1)`
with a single-character pattern acts character-wise). -/
def replaceUnderscore (c : Char) : Char :=
  if c = '_' then ' ' else c

/-- `getMessage` (validate.go lines 295-298): underscore-to-space, lower-case,
then upper-case the first character.  Go's `strings.ToLower` and the
byte-indexing `lower[:1]`/`lower[1:]` coincide with the character-wise
operations below on the ASCII enum names this function receives.  Go panics
on the empty string (`lower[:1]` is out of range); enum names are never
empty, and we return the empty string there. -/
def getMessage (message : String) : String :=
  let lower := String.mk ((message.data.map replaceUnderscore).map Char.toLower)
  match lower.data with
  | [] => lower
  | c :: cs => String.mk (Char.toUpper c :: cs)

/-- `specValidator.validateStep` (validate.go lines 273-293) as a function of
the runner's reply for this step: a transport error yields an error carrying
the transport error's text, the spec's file and a nil error type; a reply of
the right message type yields nothing when valid, and otherwise an error with
the rendered message, the runner's error type and the concept-or-spec file
depending on `s.Parent`; any other message type yields the fixed
invalid-response error attributed to the spec's file. -/
def validateStep (rn : Runner) (cd : ConceptDictionary) (specFileName : String)
    (s : Step) : Option StepValidationError :=
  match rn.respond s.Value s.Args with
  | .transportError msg => some ⟨s, msg, specFileName, none⟩
  | .reply mt isValid etName et =>
    if mt = .stepValidateResponse then
      if isValid then none
      else
        let msg := getMessage etName
        match s.Parent with
        | none => some ⟨s, msg, specFileName, some et⟩
        | some pv => some ⟨s, msg, SearchFileName cd pv, some et⟩
    else some ⟨s, "Invalid response from runner for Validation request", specFileName,
               some invalidResponse⟩

/-- The mutable state of a `specValidator` pass, plus an instrumentation
field: `runnerCalls` records, in order, every round-trip actually performed
(`getResponseFromRunner` in the Go code is invoked exactly once per
`validateStep` call, which happens exactly on a cache miss). -/
structure SVState where
  stepValidationCache : List (String × Option StepValidationError)
  runnerCalls : List (String × Nat)
  stepValidationErrors : List StepValidationError
deriving DecidableEq

/-- Association-list lookup keyed by strings, first match wins. -/
def lookupStr {β : Type} : List (String × β) → String → Option β
  | [], _ => none
  | (k, x) :: rest, t => if k = t then some x else lookupStr rest t

mutual
/-- `specValidator.Step` (validate.go lines 239-265): a concept step is
expanded and its body visited recursively; a literal step is looked up in the
validation cache — on a miss `validateStep` runs (one runner round-trip,
recorded in `runnerCalls`), any error is accumulated and the outcome (error
or nil) is cached; on a hit a nil outcome contributes nothing and a non-nil
outcome is re-recorded against this step with the cached message and error
type, attributed to the spec's file for a top-level step and to the defining
concept's file when `Parent` is set. -/
def svStep (rn : Runner) (cd : ConceptDictionary) (f : String) (st : SVState) :
    Step → SVState
  | Step.mk i v a ic cs p =>
    if ic then svSteps rn cd f st cs
    else
      match lookupStr st.stepValidationCache v with
      | none =>
        let err := validateStep rn cd f (Step.mk i v a ic cs p)
        { stepValidationCache := st.stepValidationCache ++ [(v, err)]
          runnerCalls := st.runnerCalls ++ [(v, a)]
          stepValidationErrors := st.stepValidationErrors ++ err.toList }
      | some val =>
        match val with
        | none => st
        | some val =>
          match p with
          | none =>
            { st with stepValidationErrors := st.stepValidationErrors ++
                [⟨Step.mk i v a ic cs p, val.message, f, val.errorType⟩] }
          | some pv =>
            { st with stepValidationErrors := st.stepValidationErrors ++
                [⟨Step.mk i v a ic cs p, val.message, SearchFileName cd pv, val.errorType⟩] }

/-- Visiting a list of steps in order (the `for _, c := range s.ConceptSteps`
loop, and more generally each sequence of steps the traversal hands to the
visitor). -/
def svSteps (rn : Runner) (cd : ConceptDictionary) (f : String) (st : SVState) :
    List Step → SVState
  | [] => st
  | c :: rest => svSteps rn cd f (svStep rn cd f st c) rest
end

/-- One `specValidator.validate` pass (validate.go lines 234-237) over a
specification.  Modelled from the spec: `gauge.Specification.Traverse` is
outside validate.go; per spec section 4.4 the pass starts by resetting the
error accumulator (the `SpecHeading` hook) and then visits the context steps,
each scenario's steps, and the teardown steps, in that order. -/
def svSpec (rn : Runner) (cd : ConceptDictionary) (st : SVState)
    (spec : Specification) : SVState :=
  let st0 := { st with stepValidationErrors := [] }
  let st1 := svSteps rn cd spec.FileName st0 spec.Contexts
  let st2 := spec.Scenarios.foldl (fun s scn => svSteps rn cd spec.FileName s scn.Steps) st1
  svSteps rn cd spec.FileName st2 spec.TearDownSteps

/-- One iteration of the `for _, spec := range v.specsToExecute` loop of
`validator.validate`: run the pass over `spec` and record its error list
when it is non-empty. -/
def vvStep (rn : Runner) (cd : ConceptDictionary)
    (acc : List (Specification × List StepValidationError) × SVState)
    (spec : Specification) :
    List (Specification × List StepValidationError) × SVState :=
  let st := svSpec rn cd acc.2 spec
  match st.stepValidationErrors with
  | [] => (acc.1, st)
  | es => (acc.1 ++ [(spec, es)], st)

/-- `validator.validate` (validate.go lines 218-232): one `specValidator`
(hence one shared validation cache) is reused across all specs; each spec
with a non-empty error list contributes an entry to the result. -/
def validatorValidate (rn : Runner) (cd : ConceptDictionary)
    (specs : List Specification) :
    List (Specification × List StepValidationError) × SVState :=
  specs.foldl (vvStep rn cd) ([], ⟨[], [], []⟩)

mutual
/-- The literal leaf steps a visit to a step validates: a concept step
contributes the leaves of its body, a literal step contributes itself. -/
def Step.leaves : Step → List Step
  | Step.mk i v a ic cs p =>
    if ic then leavesList cs else [Step.mk i v a ic cs p]

def leavesList : List Step → List Step
  | [] => []
  | s :: rest => s.leaves ++ leavesList rest
end

/-- The concatenation of all scenarios' step lists, in order. -/
def scenarioSteps (scns : List Scenario) : List Step :=
  scns.foldr (fun scn acc => scn.Steps ++ acc) []

/-- All steps of a specification's traversal, in visiting order. -/
def Specification.allSteps (sp : Specification) : List Step :=
  sp.Contexts ++ scenarioSteps sp.Scenarios ++ sp.TearDownSteps

/-- The literal leaf steps validated during one run over `specs`. -/
def runLeaves (specs : List Specification) : List Step :=
  specs.foldr (fun sp acc => leavesList sp.allSteps ++ acc) []

/-- All errors in a `validator.validate` result, across all specs. -/
def allErrs (ves : List (Specification × List StepValidationError)) :
    List StepValidationError :=
  ves.foldr (fun p acc => p.2 ++ acc) []

/-- `ValidationErrMaps` (validate.go lines 40-44).  The Go maps are keyed by
`*Specification`, `*Scenario` and `*Step` pointers; we key the association
lists by the corresponding `Id` identities. -/
structure ValidationErrMaps where
  SpecErrs : List (Nat × List StepValidationError)
  ScenarioErrs : List (Nat × List StepValidationError)
  StepErrs : List (Nat × StepValidationError)
deriving DecidableEq

/-- `NewValidationErrMaps` (validate.go lines 68-74): all three maps empty. -/
def NewValidationErrMaps : ValidationErrMaps := ⟨[], [], []⟩

/-- Association-list lookup keyed by `Nat` identities, first match wins. -/
def lookupN {β : Type} : List (Nat × β) → Nat → Option β
  | [], _ => none
  | (k, x) :: rest, t => if k = t then some x else lookupN rest t

/-- Go map assignment `m[k] = x`: replace the entry if the key is present,
otherwise add it. -/
def upsert {β : Type} : List (Nat × β) → Nat → β → List (Nat × β)
  | [], k, x => [(k, x)]
  | (k', y) :: rest, k, x =>
    if k' = k then (k', x) :: rest else (k', y) :: upsert rest k x

/-- Go slice-map append `m[k] = append(m[k], vs...)`: extend the entry if the
key is present, otherwise create it (Go creates the entry even when `vs` is
empty, since the assignment always stores). -/
def appendEntry {β : Type} : List (Nat × List β) → Nat → List β → List (Nat × List β)
  | [], k, vs => [(k, vs)]
  | (k', l) :: rest, k, vs =>
    if k' = k then (k', l ++ vs) :: rest else (k', l) :: appendEntry rest k vs

mutual
/-- `fillScenarioErrors` (validate.go lines 173-182): walk the steps, recurse
into concept bodies first, and append the step's entry in the Step-level map
(when present) to the scenario's error list. -/
def fillScenarioErrors (scnId : Nat) (errMap : ValidationErrMaps) :
    List Step → ValidationErrMaps
  | [] => errMap
  | s :: rest => fillScenarioErrors scnId (fillScenarioStep scnId errMap s) rest

/-- One iteration of the `fillScenarioErrors` loop body. -/
def fillScenarioStep (scnId : Nat) (errMap : ValidationErrMaps) :
    Step → ValidationErrMaps
  | Step.mk i _v _a ic cs _p =>
    let em1 := if ic then fillScenarioErrors scnId errMap cs else errMap
    match lookupN em1.StepErrs i with
    | some err => { em1 with ScenarioErrs := appendEntry em1.ScenarioErrs scnId [err] }
    | none => em1
end

/-- The inner `for _, scenario := range spec.Scenarios` loop of
`fillSpecErrors` (validate.go lines 191-195): force-propagate a context or
teardown error into every scenario that has no Scenario-level entry yet. -/
def propagateErr (spec : Specification) (err : StepValidationError)
    (errMap : ValidationErrMaps) : ValidationErrMaps :=
  spec.Scenarios.foldl
    (fun m scn =>
      match lookupN m.ScenarioErrs scn.Id with
      | some _ => m
      | none => { m with ScenarioErrs := appendEntry m.ScenarioErrs scn.Id [err] })
    errMap

mutual
/-- `fillSpecErrors` (validate.go lines 184-198): walk the context/teardown
steps, recurse into concept bodies first; a step present in the Step-level
map appends its error to the Spec-level list and to the error list of every
scenario that has no Scenario-level entry yet. -/
def fillSpecErrors (spec : Specification) (errMap : ValidationErrMaps) :
    List Step → ValidationErrMaps
  | [] => errMap
  | s :: rest => fillSpecErrors spec (fillSpecStep spec errMap s) rest

/-- One iteration of the `fillSpecErrors` loop body. -/
def fillSpecStep (spec : Specification) (errMap : ValidationErrMaps) :
    Step → ValidationErrMaps
  | Step.mk i _v _a ic cs _p =>
    let em1 := if ic then fillSpecErrors spec errMap cs else errMap
    match lookupN em1.StepErrs i with
    | some err =>
      propagateErr spec err { em1 with SpecErrs := appendEntry em1.SpecErrs spec.Id [err] }
    | none => em1
end

/-- The body of the `for spec, errors := range validationErrors` loop in
`getErrMap` (validate.go lines 154-169): build the Step-level map from the
flat error list, fill each scenario's errors counting the scenarios that
acquired an entry, copy the first scenario's list to the Spec-level map when
every scenario acquired one, then walk contexts and teardown steps. -/
def getErrMapOne (errMap : ValidationErrMaps)
    (p : Specification × List StepValidationError) : ValidationErrMaps :=
  let spec := p.1
  let em0 := p.2.foldl (fun m err => { m with StepErrs := upsert m.StepErrs err.step.Id err }) errMap
  let folded := spec.Scenarios.foldl
    (fun q scn =>
      let m := fillScenarioErrors scn.Id q.1 scn.Steps
      if (lookupN m.ScenarioErrs scn.Id).isSome then (m, q.2 + 1) else (m, q.2))
    (em0, 0)
  let em1 := folded.1
  let skippedScnInSpec := folded.2
  let em2 :=
    match spec.Scenarios.head? with
    | some scn0 =>
      if skippedScnInSpec = spec.Scenarios.length then
        { em1 with SpecErrs :=
            appendEntry em1.SpecErrs spec.Id ((lookupN em1.ScenarioErrs scn0.Id).getD []) }
      else em1
    | none => em1
  fillSpecErrors spec em2 (spec.Contexts ++ spec.TearDownSteps)

/-- `getErrMap` (validate.go lines 152-171).  The Go `range` over the
`validationErrors` map iterates in unspecified order; we take the input as an
ordered list. -/
def getErrMap (validationErrors : List (Specification × List StepValidationError)) :
    ValidationErrMaps :=
  validationErrors.foldl getErrMapOne NewValidationErrMaps

mutual
/-- All steps `fillScenarioErrors`/`fillSpecErrors` test against the
Step-level map, in processing order: concept bodies are expanded first, and
every step — concept heads included — is then itself tested. -/
def expandAll : List Step → List Step
  | [] => []
  | s :: rest => expandStep s ++ expandAll rest

/-- The steps one loop iteration tests, in order: the expanded concept body
first, then the step itself. -/
def expandStep : Step → List Step
  | Step.mk i v a ic cs p =>
    (if ic then expandAll cs else []) ++ [Step.mk i v a ic cs p]
end

/-- The result of `ValidateSpecs` (validate.go lines 123-150) together with
the observable interactions of the run: whether `startAPI` ran, whether the
runner was killed, and every runner round-trip performed (in order). -/
structure ValidateSpecsOutcome where
  Errs : List String
  SpecCollection : Option (List Specification)
  ErrMap : Option ValidationErrMaps
  runnerStarted : Bool
  runnerKilled : Bool
  runnerCalls : List (String × Nat)
deriving DecidableEq

/-- `ValidateSpecs` (validate.go lines 123-150).  The collaborators are
inputs: `manifestError` embeds a failing `manifest.ProjectManifest()`,
`conceptCriticalErrors`/`conceptResOk` embed `parser.ParseConcepts()`'s
result, and `specs`/`specsFailed` embed `parser.ParseSpecs`.  Control flow
follows the source: a manifest error returns immediately; concept-parse
critical errors return before `startAPI`; otherwise the runner is started,
`validator.validate` runs over all parsed specs, the error maps are built
when there are validation errors, and only then is `specsFailed || !res.Ok`
checked — in which case the runner is killed and a bare "Parsing failed."
result is returned. -/
def ValidateSpecs (manifestError : Option String)
    (conceptCriticalErrors : List String) (conceptResOk : Bool)
    (specs : List Specification) (specsFailed : Bool)
    (rn : Runner) (cd : ConceptDictionary) : ValidateSpecsOutcome :=
  match manifestError with
  | some e => ⟨[e], none, none, false, false, []⟩
  | none =>
    if conceptCriticalErrors ≠ [] then
      ⟨conceptCriticalErrors, none, none, false, false, []⟩
    else
      let r := validatorValidate rn cd specs
      let vErrs := r.1
      let errMap := if vErrs ≠ [] then getErrMap vErrs else NewValidationErrMaps
      if specsFailed ∨ conceptResOk = false then
        ⟨["Parsing failed."], none, none, true, true, r.2.runnerCalls⟩
      else
        ⟨[], some specs, some errMap, true, false, r.2.runnerCalls⟩

/-- Go's `strconv.Atoi` restricted to what validate.go feeds it: an optional
sign followed by decimal digits, rejecting anything else and (as Go does for
a 64-bit `int`) any value outside `[-2^63, 2^63 - 1]`. -/
def atoi (s : String) : Option Int :=
  let core : Int → List Char → Option Int := fun sign ds =>
    if ds = [] ∨ ¬ ds.all Char.isDigit then none
    else
      let v : Int := sign * (ds.foldl (fun acc c => acc * 10 + (c.toNat - 48)) 0 : Nat)
      if -9223372036854775808 ≤ v ∧ v ≤ 9223372036854775807 then some v else none
  match s.data with
  | '+' :: rest => core 1 rest
  | '-' :: rest => core (-1) rest
  | ds => core 1 ds

/-- `ValidateTableRowsRange` (validate.go lines 336-350): parse both bounds,
reject start > end, end beyond the row count, or either bound below 1, and
return the zero-based pair otherwise.  The Go error value is embedded as
`Option String`. -/
def ValidateTableRowsRange (start : String) (endS : String) (rowCount : Int) :
    Int × Int × Option String :=
  let message := "Table rows range validation failed."
  match atoi start with
  | none => (0, 0, some message)
  | some startRow =>
    match atoi endS with
    | none => (0, 0, some message)
    | some endRow =>
      if startRow > endRow ∨ endRow > rowCount ∨ startRow < 1 ∨ endRow < 1 then
        (0, 0, some message)
      else (startRow - 1, endRow - 1, none)

/-- The spec's description of the error-kind rendering, written from its
words: "lower-casing, underscore-to-space normalization, and capitalizing the
first letter". -/
def specRenderErrorKind (m : String) : String :=
  let lowered := String.mk (m.data.map Char.toLower)
  let normalized := String.mk (lowered.data.map replaceUnderscore)
  match normalized.data with
  | [] => normalized
  | c :: cs => String.mk (Char.toUpper c :: cs)

/-! ### Concrete fixtures (used by the witness theorems) -/

/-- A concrete runner oracle: step text "a" is reported invalid, "b" gets a
reply of the wrong message type, "c" fails at the transport level, and
everything else is valid. -/
def wRunner : Runner :=
  ⟨fun t _ =>
    if t = "a" then .reply .stepValidateResponse false "STEP_IMPLEMENTATION_NOT_FOUND" 0
    else if t = "b" then .reply (.other 99) true "" 0
    else if t = "c" then .transportError "connection refused"
    else .reply .stepValidateResponse true "" 0⟩

def wCD : ConceptDictionary := [("mycpt", ⟨"concept.cpt"⟩)]

def wLeafA : Step := .mk 1 "a" 2 false [] none

def wLeafA2 : Step := .mk 2 "a" 2 false [] (some "mycpt")

def wCpt : Step := .mk 3 "mycpt" 0 true [wLeafA2] none

def wLeafB : Step := .mk 4 "b" 0 false [] none

def wLeafC : Step := .mk 5 "c" 1 false [] (some "mycpt")

def wSpec : Specification := ⟨10, "s1.spec", [⟨20, [wLeafA, wCpt]⟩], [], []⟩

def wStep1 : Step := .mk 6 "step1" 0 false [] none

def wSpec2 : Specification := ⟨11, "s2.spec", [⟨21, [wStep1]⟩], [], []⟩

def wCtxStep : Step := .mk 7 "ctx" 0 false [] none

def wScnX : Scenario := ⟨30, [.mk 8 "x" 0 false [] none]⟩

def wScnY : Scenario := ⟨31, [.mk 9 "y" 0 false [] none]⟩

def wSpecCtx : Specification := ⟨12, "s3.spec", [wScnX, wScnY], [wCtxStep], []⟩

def wCtxErr : StepValidationError := ⟨wCtxStep, "ctx failed", "s3.spec", some 0⟩

def wEmCtx : ValidationErrMaps := ⟨[], [], [(7, wCtxErr)]⟩

def wSa : Step := .mk 41 "a1" 0 false [] none

def wSb : Step := .mk 42 "b1" 0 false [] none

def wSc : Step := .mk 43 "c1" 0 false [] none

def wScn1 : Scenario := ⟨51, [wSa]⟩

def wScn2 : Scenario := ⟨52, [wSb]⟩

def wScn3 : Scenario := ⟨53, [wSc]⟩

def wSpecAll : Specification := ⟨13, "s4.spec", [wScn1, wScn2, wScn3], [], []⟩

def wE1 : StepValidationError := ⟨wSa, "m1", "s4.spec", some 0⟩

def wE2 : StepValidationError := ⟨wSb, "m2", "s4.spec", some 0⟩

def wE3 : StepValidationError := ⟨wSc, "m3", "s4.spec", some 0⟩

/-! ### Derived definitions used by the proofs -/

/-- The visitor invariant: round-trip texts are pairwise distinct and the
cache holds exactly the texts already sent to the runner. -/
def SVInv (st : SVState) : Prop :=
  (st.runnerCalls.map Prod.fst).Nodup ∧
  ∀ t, (lookupStr st.stepValidationCache t).isSome = true ↔ t ∈ st.runnerCalls.map Prod.fst

/-- Every recorded error is backed by a cache entry for its step's text, with
the same message and error type. -/
def ErrLink (cache : List (String × Option StepValidationError))
    (errs : List StepValidationError) : Prop :=
  ∀ e ∈ errs, ∃ w, lookupStr cache e.step.Value = some (some w) ∧
    w.message = e.message ∧ w.errorType = e.errorType

/-- The scenario phase of `svSpec`, as its own function for reasoning. -/
def scnFold (rn : Runner) (cd : ConceptDictionary) (f : String) (st : SVState)
    (scns : List Scenario) : SVState :=
  scns.foldl (fun s scn => svSteps rn cd f s scn.Steps) st

/-- A step "fails" with respect to a flat error list when some error in the
list is keyed to it. -/
def failsStep (errs : List StepValidationError) (u : Step) : Prop :=
  ∃ e ∈ errs, e.step.Id = u.Id

/-- Some step in the concept-expansion closure of `l` fails. -/
def failsAny (errs : List StepValidationError) (l : List Step) : Prop :=
  ∃ u ∈ expandAll l, failsStep errs u

/-- The Step-level map built by `getErrMapOne`'s first loop. -/
def buildStepErrs (em : ValidationErrMaps) (errs : List StepValidationError) :
    ValidationErrMaps :=
  errs.foldl (fun m err => { m with StepErrs := upsert m.StepErrs err.step.Id err }) em

/-- The scenario loop of `getErrMapOne`, as its own function for reasoning. -/
def scnCountFold (spec : Specification) (em : ValidationErrMaps) :
    ValidationErrMaps × Nat :=
  spec.Scenarios.foldl
    (fun q scn =>
      let m := fillScenarioErrors scn.Id q.1 scn.Steps
      if (lookupN m.ScenarioErrs scn.Id).isSome then (m, q.2 + 1) else (m, q.2))
    (em, 0)

/-- The generalized scenario loop over an arbitrary scenario list and start
state. -/
def scnCountFoldAux (scns : List Scenario) (em : ValidationErrMaps) (k : Nat) :
    ValidationErrMaps × Nat :=
  scns.foldl
    (fun q scn =>
      let m := fillScenarioErrors scn.Id q.1 scn.Steps
      if (lookupN m.ScenarioErrs scn.Id).isSome then (m, q.2 + 1) else (m, q.2))
    (em, k)

def propagateErrAux (scns : List Scenario) (err : StepValidationError)
    (em : ValidationErrMaps) : ValidationErrMaps :=
  scns.foldl
    (fun m scn =>
      match lookupN m.ScenarioErrs scn.Id with
      | some _ => m
      | none => { m with ScenarioErrs := appendEntry m.ScenarioErrs scn.Id [err] })
    em

/-- Does some step in the expansion of the scenario's steps have a
Step-level entry? -/
def scnFails (se : List (Nat × StepValidationError)) (scn : Scenario) : Bool :=
  (expandAll scn.Steps).any (fun u => (lookupN se u.Id).isSome)

instance (errs : List StepValidationError) (u : Step) : Decidable (failsStep errs u) := by
  unfold failsStep
  infer_instance

instance (errs : List StepValidationError) (l : List Step) : Decidable (failsAny errs l) := by
  unfold failsAny
  infer_instance

/-! ### Helper lemmas -/

theorem char_toNat_ofNat_valid {n : Nat} (h : n < 55296) : (Char.ofNat n).toNat = n := by
  have hv : n.isValidChar := Or.inl h
  rw [Char.ofNat, dif_pos hv]
  simp [Char.ofNatAux, Char.toNat, UInt32.toNat, BitVec.ofNatLt]

theorem toLower_ne_underscore {c : Char} (h : c ≠ '_') : Char.toLower c ≠ '_' := by
  intro hl
  apply h
  unfold Char.toLower at hl
  simp only [] at hl
  by_cases hr : c.toNat ≥ 65 ∧ c.toNat ≤ 90
  case pos =>
    rw [if_pos hr] at hl
    have h2 := congrArg Char.toNat hl
    rw [char_toNat_ofNat_valid (by omega)] at h2
    have h3 : Char.toNat '_' = 95 := by decide
    omega
  case neg =>
    rw [if_neg hr] at hl
    exact hl

theorem toLower_replaceUnderscore (c : Char) :
    Char.toLower (replaceUnderscore c) = replaceUnderscore (Char.toLower c) := by
  by_cases h : c = '_'
  · subst h; decide
  · simp only [replaceUnderscore, if_neg h, if_neg (toLower_ne_underscore h)]

/-- The code's rendering and the spec's description of it agree on every
input string. -/
theorem getMessage_eq_spec (m : String) : getMessage m = specRenderErrorKind m := by
  have hl : (m.data.map replaceUnderscore).map Char.toLower
          = (m.data.map Char.toLower).map replaceUnderscore := by
    induction m.data with
    | nil => rfl
    | cons c cs ih => simp [toLower_replaceUnderscore c, ih]
  simp only [getMessage, specRenderErrorKind]
  rw [hl]

/-- `validateStep` on a worker-reported invalid outcome. -/
theorem validateStep_invalid (rn : Runner) (cd : ConceptDictionary) (f : String)
    (s : Step) (etName : String) (et : StepValidateResponse_ErrorType)
    (hresp : rn.respond s.Value s.Args = .reply .stepValidateResponse false etName et) :
    validateStep rn cd f s =
      some ⟨s, getMessage etName,
            (match s.Parent with | none => f | some pv => SearchFileName cd pv), some et⟩ := by
  unfold validateStep
  rw [hresp]
  cases hp : s.Parent <;> simp [hp]

/-- `validateStep` on a transport failure. -/
theorem validateStep_transport (rn : Runner) (cd : ConceptDictionary) (f : String)
    (s : Step) (em : String)
    (hresp : rn.respond s.Value s.Args = .transportError em) :
    validateStep rn cd f s = some ⟨s, em, f, none⟩ := by
  unfold validateStep
  rw [hresp]

/-- `validateStep` on a reply whose message type is not the validation
response type. -/
theorem validateStep_invalidResponse (rn : Runner) (cd : ConceptDictionary) (f : String)
    (s : Step) (mt : GaugeMessageType) (iv : Bool) (etName : String)
    (et : StepValidateResponse_ErrorType)
    (hresp : rn.respond s.Value s.Args = .reply mt iv etName et)
    (hmt : mt ≠ .stepValidateResponse) :
    validateStep rn cd f s =
      some ⟨s, "Invalid response from runner for Validation request", f, some invalidResponse⟩ := by
  unfold validateStep
  rw [hresp]
  simp [hmt]

theorem lookupStr_append {β : Type} (l1 l2 : List (String × β)) (t : String) :
    lookupStr (l1 ++ l2) t =
      (match lookupStr l1 t with | some x => some x | none => lookupStr l2 t) := by
  induction l1 with
  | nil => simp [lookupStr]
  | cons p rest ih =>
    obtain ⟨k, x⟩ := p
    by_cases h : k = t <;> simp [lookupStr, h, ih]

theorem lookupStr_append_left {β : Type} {l1 : List (String × β)} {t : String} {x : β}
    (l2 : List (String × β)) (h : lookupStr l1 t = some x) :
    lookupStr (l1 ++ l2) t = some x := by
  rw [lookupStr_append, h]

theorem lookupStr_isSome_iff_mem {β : Type} (l : List (String × β)) (t : String) :
    (lookupStr l t).isSome ↔ t ∈ l.map Prod.fst := by
  induction l with
  | nil => simp [lookupStr]
  | cons p rest ih =>
    obtain ⟨k, x⟩ := p
    by_cases h : k = t
    · subst h
      simp [lookupStr]
    · simp only [lookupStr, if_neg h, List.map_cons, List.mem_cons, ih]
      constructor
      · intro hm
        exact Or.inr hm
      · rintro (hm | hm)
        · exact absurd hm.symm h
        · exact hm

theorem lookupN_appendEntry_self {β : Type} (l : List (Nat × List β)) (k : Nat)
    (vs : List β) :
    lookupN (appendEntry l k vs) k = some ((lookupN l k).getD [] ++ vs) := by
  induction l with
  | nil => simp [appendEntry, lookupN]
  | cons p rest ih =>
    obtain ⟨k', ys⟩ := p
    by_cases h : k' = k <;> simp [appendEntry, lookupN, h, ih]

theorem lookupN_appendEntry_ne {β : Type} (l : List (Nat × List β)) {k k' : Nat}
    (vs : List β) (h : k' ≠ k) :
    lookupN (appendEntry l k vs) k' = lookupN l k' := by
  induction l with
  | nil => simp [appendEntry, lookupN, Ne.symm h]
  | cons p rest ih =>
    obtain ⟨k0, ys⟩ := p
    by_cases h0 : k0 = k
    · subst h0
      simp [appendEntry, lookupN, Ne.symm h]
    · by_cases h1 : k0 = k'
      · subst h1
        rw [appendEntry, if_neg h0]
        simp [lookupN]
      · simp [appendEntry, lookupN, h0, h1, ih]

theorem lookupN_upsert_self {β : Type} (l : List (Nat × β)) (k : Nat) (x : β) :
    lookupN (upsert l k x) k = some x := by
  induction l with
  | nil => simp [upsert, lookupN]
  | cons p rest ih =>
    obtain ⟨k', y⟩ := p
    by_cases h : k' = k <;> simp [upsert, lookupN, h, ih]

theorem lookupN_upsert_ne {β : Type} (l : List (Nat × β)) {k k' : Nat} (x : β)
    (h : k' ≠ k) :
    lookupN (upsert l k x) k' = lookupN l k' := by
  induction l with
  | nil => simp [upsert, lookupN, Ne.symm h]
  | cons p rest ih =>
    obtain ⟨k0, y⟩ := p
    by_cases h0 : k0 = k
    · subst h0
      simp [upsert, lookupN, Ne.symm h]
    · by_cases h1 : k0 = k'
      · subst h1
        rw [upsert, if_neg h0]
        simp [lookupN]
      · simp [upsert, lookupN, h0, h1, ih]
/-- A `validateStep` result always records the very step it was called on. -/
theorem validateStep_step (rn : Runner) (cd : ConceptDictionary) (f : String)
    (s : Step) (e : StepValidationError) (h : validateStep rn cd f s = some e) :
    e.step = s := by
  unfold validateStep at h
  split at h
  · cases h
    rfl
  · split at h
    · split at h
      · exact Option.noConfusion h
      · split at h <;> (cases h; rfl)
    · cases h
      rfl


mutual
theorem svStep_cache_mono (rn : Runner) (cd : ConceptDictionary) (f : String)
    (st : SVState) (s : Step) (t : String) (x : Option StepValidationError)
    (h : lookupStr st.stepValidationCache t = some x) :
    lookupStr (svStep rn cd f st s).stepValidationCache t = some x := by
  match s with
  | Step.mk i v a ic cs p =>
    rw [svStep]
    by_cases hic : ic
    · rw [if_pos hic]
      exact svSteps_cache_mono rn cd f st cs t x h
    · rw [if_neg hic]
      cases hl : lookupStr st.stepValidationCache v with
      | none => exact lookupStr_append_left _ h
      | some val =>
        cases val with
        | none => exact h
        | some val => cases p <;> exact h

theorem svSteps_cache_mono (rn : Runner) (cd : ConceptDictionary) (f : String)
    (st : SVState) (l : List Step) (t : String) (x : Option StepValidationError)
    (h : lookupStr st.stepValidationCache t = some x) :
    lookupStr (svSteps rn cd f st l).stepValidationCache t = some x := by
  match l with
  | [] => exact h
  | c :: rest =>
    rw [svSteps]
    exact svSteps_cache_mono rn cd f _ rest t x (svStep_cache_mono rn cd f st c t x h)
end

mutual
theorem svStep_errs_mono (rn : Runner) (cd : ConceptDictionary) (f : String)
    (st : SVState) (s : Step) (e : StepValidationError)
    (h : e ∈ st.stepValidationErrors) :
    e ∈ (svStep rn cd f st s).stepValidationErrors := by
  match s with
  | Step.mk i v a ic cs p =>
    rw [svStep]
    by_cases hic : ic
    · rw [if_pos hic]
      exact svSteps_errs_mono rn cd f st cs e h
    · rw [if_neg hic]
      cases hl : lookupStr st.stepValidationCache v with
      | none => exact List.mem_append_left _ h
      | some val =>
        cases val with
        | none => exact h
        | some val => cases p <;> exact List.mem_append_left _ h

theorem svSteps_errs_mono (rn : Runner) (cd : ConceptDictionary) (f : String)
    (st : SVState) (l : List Step) (e : StepValidationError)
    (h : e ∈ st.stepValidationErrors) :
    e ∈ (svSteps rn cd f st l).stepValidationErrors := by
  match l with
  | [] => exact h
  | c :: rest =>
    rw [svSteps]
    exact svSteps_errs_mono rn cd f _ rest e (svStep_errs_mono rn cd f st c e h)
end

mutual
theorem svStep_calls_mono (rn : Runner) (cd : ConceptDictionary) (f : String)
    (st : SVState) (s : Step) (q : String × Nat) (h : q ∈ st.runnerCalls) :
    q ∈ (svStep rn cd f st s).runnerCalls := by
  match s with
  | Step.mk i v a ic cs p =>
    rw [svStep]
    by_cases hic : ic
    · rw [if_pos hic]
      exact svSteps_calls_mono rn cd f st cs q h
    · rw [if_neg hic]
      cases hl : lookupStr st.stepValidationCache v with
      | none => exact List.mem_append_left _ h
      | some val =>
        cases val with
        | none => exact h
        | some val => cases p <;> exact h

theorem svSteps_calls_mono (rn : Runner) (cd : ConceptDictionary) (f : String)
    (st : SVState) (l : List Step) (q : String × Nat) (h : q ∈ st.runnerCalls) :
    q ∈ (svSteps rn cd f st l).runnerCalls := by
  match l with
  | [] => exact h
  | c :: rest =>
    rw [svSteps]
    exact svSteps_calls_mono rn cd f _ rest q (svStep_calls_mono rn cd f st c q h)
end

mutual
theorem svStep_inv (rn : Runner) (cd : ConceptDictionary) (f : String)
    (st : SVState) (s : Step) (h : SVInv st) : SVInv (svStep rn cd f st s) := by
  match s with
  | Step.mk i v a ic cs p =>
    rw [svStep]
    by_cases hic : ic
    · rw [if_pos hic]
      exact svSteps_inv rn cd f st cs h
    · rw [if_neg hic]
      cases hl : lookupStr st.stepValidationCache v with
      | none =>
        obtain ⟨hnd, hiff⟩ := h
        constructor
        · simp only [List.map_append, List.map_cons, List.map_nil]
          rw [List.nodup_append]
          refine ⟨hnd, List.nodup_singleton _, ?_⟩
          intro t ht htv
          simp only [List.mem_singleton] at htv
          subst htv
          have h2 := (hiff t).2 ht
          rw [hl] at h2
          simp at h2
        · intro t
          rw [lookupStr_append]
          simp only [List.map_append, List.map_cons, List.map_nil, List.mem_append,
            List.mem_singleton]
          cases hct : lookupStr st.stepValidationCache t with
          | some x =>
            have h1 : t ∈ st.runnerCalls.map Prod.fst := (hiff t).1 (by rw [hct]; rfl)
            simp [h1]
          | none =>
            have h1 : t ∉ st.runnerCalls.map Prod.fst := by
              intro hm
              have := (hiff t).2 hm
              rw [hct] at this
              simp at this
            simp only [lookupStr]
            by_cases hv : v = t
            · subst hv
              simp [h1]
            · simp only [if_neg hv, Option.isSome_none, Bool.false_eq_true, false_iff]
              rintro (hm | hm)
              · exact h1 hm
              · exact hv hm.symm
      | some val =>
        cases val with
        | none => exact h
        | some val => cases p <;> exact h

theorem svSteps_inv (rn : Runner) (cd : ConceptDictionary) (f : String)
    (st : SVState) (l : List Step) (h : SVInv st) : SVInv (svSteps rn cd f st l) := by
  match l with
  | [] => exact h
  | c :: rest =>
    rw [svSteps]
    exact svSteps_inv rn cd f _ rest (svStep_inv rn cd f st c h)
end

mutual
theorem leaves_nonconcept (s : Step) : ∀ ℓ ∈ s.leaves, ℓ.IsConcept = false := by
  match s with
  | Step.mk i v a ic cs p =>
    rw [Step.leaves]
    by_cases hic : ic
    · rw [if_pos hic]
      exact leavesList_nonconcept cs
    · rw [if_neg hic]
      intro ℓ hm
      simp only [List.mem_singleton] at hm
      subst hm
      simp only [Step.IsConcept]
      exact Bool.eq_false_iff.2 hic

theorem leavesList_nonconcept (l : List Step) : ∀ ℓ ∈ leavesList l, ℓ.IsConcept = false := by
  match l with
  | [] => intro ℓ hm; simp [leavesList] at hm
  | c :: rest =>
    intro ℓ hm
    rw [leavesList] at hm
    rcases List.mem_append.1 hm with hm | hm
    · exact leaves_nonconcept c ℓ hm
    · exact leavesList_nonconcept rest ℓ hm
end

mutual
theorem svStep_complete (rn : Runner) (cd : ConceptDictionary) (f : String)
    (st : SVState) (s : Step) :
    ∀ ℓ ∈ s.leaves, (lookupStr (svStep rn cd f st s).stepValidationCache ℓ.Value).isSome = true := by
  match s with
  | Step.mk i v a ic cs p =>
    rw [svStep, Step.leaves]
    by_cases hic : ic
    · rw [if_pos hic, if_pos hic]
      exact svSteps_complete rn cd f st cs
    · rw [if_neg hic, if_neg hic]
      intro ℓ hm
      simp only [List.mem_singleton] at hm
      subst hm
      simp only [Step.Value]
      cases hl : lookupStr st.stepValidationCache v with
      | none =>
        have : lookupStr (st.stepValidationCache ++
            [(v, validateStep rn cd f (Step.mk i v a ic cs p))]) v =
            some (validateStep rn cd f (Step.mk i v a ic cs p)) := by
          rw [lookupStr_append, hl]
          simp [lookupStr]
        simp [this]
      | some val =>
        cases val with
        | none => simp [hl]
        | some val => cases p <;> simp [hl]

theorem svSteps_complete (rn : Runner) (cd : ConceptDictionary) (f : String)
    (st : SVState) (l : List Step) :
    ∀ ℓ ∈ leavesList l, (lookupStr (svSteps rn cd f st l).stepValidationCache ℓ.Value).isSome = true := by
  match l with
  | [] => intro ℓ hm; simp [leavesList] at hm
  | c :: rest =>
    intro ℓ hm
    rw [leavesList] at hm
    rw [svSteps]
    rcases List.mem_append.1 hm with hm | hm
    · have h1 := svStep_complete rn cd f st c ℓ hm
      cases hx : lookupStr (svStep rn cd f st c).stepValidationCache ℓ.Value with
      | none => rw [hx] at h1; simp at h1
      | some x =>
        rw [svSteps_cache_mono rn cd f _ rest ℓ.Value x hx]
        rfl
    · exact svSteps_complete rn cd f _ rest ℓ hm
end

mutual
theorem svStep_origin (rn : Runner) (cd : ConceptDictionary) (f : String)
    (st : SVState) (s : Step) :
    (∀ q ∈ (svStep rn cd f st s).runnerCalls, q ∈ st.runnerCalls ∨
       ∃ ℓ ∈ s.leaves, ℓ.Value = q.1 ∧ ℓ.Args = q.2) ∧
    (∀ t, (lookupStr (svStep rn cd f st s).stepValidationCache t).isSome = true →
       (lookupStr st.stepValidationCache t).isSome = true ∨ ∃ ℓ ∈ s.leaves, ℓ.Value = t) ∧
    (∀ e ∈ (svStep rn cd f st s).stepValidationErrors, e ∈ st.stepValidationErrors ∨
       ∃ ℓ ∈ s.leaves, e.step = ℓ) := by
  match s with
  | Step.mk i v a ic cs p =>
    rw [svStep, Step.leaves]
    by_cases hic : ic
    · rw [if_pos hic, if_pos hic]
      exact svSteps_origin rn cd f st cs
    · rw [if_neg hic, if_neg hic]
      cases hl : lookupStr st.stepValidationCache v with
      | none =>
        refine ⟨?_, ?_, ?_⟩
        · intro q hq
          rcases List.mem_append.1 hq with hq | hq
          · exact Or.inl hq
          · simp only [List.mem_singleton] at hq
            subst hq
            exact Or.inr ⟨Step.mk i v a ic cs p, List.mem_singleton_self _, rfl, rfl⟩
        · intro t ht
          rw [lookupStr_append] at ht
          cases hct : lookupStr st.stepValidationCache t with
          | some x => exact Or.inl (by simp [hct])
          | none =>
            rw [hct] at ht
            simp only [lookupStr] at ht
            by_cases hv : v = t
            · exact Or.inr ⟨Step.mk i v a ic cs p, List.mem_singleton_self _, hv⟩
            · rw [if_neg hv] at ht
              simp at ht
        · intro e he
          rcases List.mem_append.1 he with he | he
          · exact Or.inl he
          · cases herr : validateStep rn cd f (Step.mk i v a ic cs p) with
            | none =>
              rw [herr] at he
              simp [Option.toList] at he
            | some e0 =>
              rw [herr] at he
              simp only [Option.toList, List.mem_singleton] at he
              refine Or.inr ⟨Step.mk i v a ic cs p, List.mem_singleton_self _, ?_⟩
              rw [he]
              exact validateStep_step rn cd f _ e0 herr
      | some val =>
        cases val with
        | none => exact ⟨fun q hq => Or.inl hq, fun t ht => Or.inl ht, fun e he => Or.inl he⟩
        | some val =>
          cases p <;>
          · refine ⟨fun q hq => Or.inl hq, fun t ht => Or.inl ht, ?_⟩
            intro e he
            rcases List.mem_append.1 he with he | he
            · exact Or.inl he
            · simp only [List.mem_singleton] at he
              subst he
              exact Or.inr ⟨Step.mk i v a ic cs _, List.mem_singleton_self _, rfl⟩

theorem svSteps_origin (rn : Runner) (cd : ConceptDictionary) (f : String)
    (st : SVState) (l : List Step) :
    (∀ q ∈ (svSteps rn cd f st l).runnerCalls, q ∈ st.runnerCalls ∨
       ∃ ℓ ∈ leavesList l, ℓ.Value = q.1 ∧ ℓ.Args = q.2) ∧
    (∀ t, (lookupStr (svSteps rn cd f st l).stepValidationCache t).isSome = true →
       (lookupStr st.stepValidationCache t).isSome = true ∨ ∃ ℓ ∈ leavesList l, ℓ.Value = t) ∧
    (∀ e ∈ (svSteps rn cd f st l).stepValidationErrors, e ∈ st.stepValidationErrors ∨
       ∃ ℓ ∈ leavesList l, e.step = ℓ) := by
  match l with
  | [] => exact ⟨fun q hq => Or.inl hq, fun t ht => Or.inl ht, fun e he => Or.inl he⟩
  | c :: rest =>
    rw [svSteps, leavesList]
    obtain ⟨hc1, hc2, hc3⟩ := svStep_origin rn cd f st c
    obtain ⟨hr1, hr2, hr3⟩ := svSteps_origin rn cd f (svStep rn cd f st c) rest
    refine ⟨?_, ?_, ?_⟩
    · intro q hq
      rcases hr1 q hq with h | ⟨ℓ, hm, hh⟩
      · rcases hc1 q h with h | ⟨ℓ, hm, hh⟩
        · exact Or.inl h
        · exact Or.inr ⟨ℓ, List.mem_append_left _ hm, hh⟩
      · exact Or.inr ⟨ℓ, List.mem_append_right _ hm, hh⟩
    · intro t ht
      rcases hr2 t ht with h | ⟨ℓ, hm, hh⟩
      · rcases hc2 t h with h | ⟨ℓ, hm, hh⟩
        · exact Or.inl h
        · exact Or.inr ⟨ℓ, List.mem_append_left _ hm, hh⟩
      · exact Or.inr ⟨ℓ, List.mem_append_right _ hm, hh⟩
    · intro e he
      rcases hr3 e he with h | ⟨ℓ, hm, hh⟩
      · rcases hc3 e h with h | ⟨ℓ, hm, hh⟩
        · exact Or.inl h
        · exact Or.inr ⟨ℓ, List.mem_append_left _ hm, hh⟩
      · exact Or.inr ⟨ℓ, List.mem_append_right _ hm, hh⟩
end


theorem errLink_mono {c c' : List (String × Option StepValidationError)}
    {errs : List StepValidationError}
    (hmono : ∀ t x, lookupStr c t = some x → lookupStr c' t = some x)
    (h : ErrLink c errs) : ErrLink c' errs := by
  intro e he
  obtain ⟨w, hw, h1, h2⟩ := h e he
  exact ⟨w, hmono _ _ hw, h1, h2⟩

mutual
theorem svStep_errlink (rn : Runner) (cd : ConceptDictionary) (f : String)
    (st : SVState) (s : Step)
    (h : ErrLink st.stepValidationCache st.stepValidationErrors) :
    ErrLink (svStep rn cd f st s).stepValidationCache
      (svStep rn cd f st s).stepValidationErrors := by
  match s with
  | Step.mk i v a ic cs p =>
    rw [svStep]
    by_cases hic : ic
    · rw [if_pos hic]
      exact svSteps_errlink rn cd f st cs h
    · rw [if_neg hic]
      cases hl : lookupStr st.stepValidationCache v with
      | none =>
        intro e he
        dsimp only at he ⊢
        rcases List.mem_append.1 he with he | he
        · obtain ⟨w, hw, h1, h2⟩ := h e he
          exact ⟨w, lookupStr_append_left _ hw, h1, h2⟩
        · cases herr : validateStep rn cd f (Step.mk i v a ic cs p) with
          | none =>
            rw [herr] at he
            simp [Option.toList] at he
          | some e0 =>
            rw [herr] at he
            simp only [Option.toList, List.mem_singleton] at he
            have hstep : e0.step = Step.mk i v a ic cs p :=
              validateStep_step rn cd f _ e0 herr
            have hval : e0.step.Value = v := by rw [hstep]; rfl
            refine ⟨e0, ?_, by rw [he], by rw [he]⟩
            rw [he, hval, lookupStr_append, hl]
            dsimp only
            simp [lookupStr]
      | some val =>
        cases val with
        | none => exact h
        | some val =>
          cases hp : p
          · intro e he
            dsimp only at he ⊢
            rcases List.mem_append.1 he with he | he
            · exact h e he
            · simp only [List.mem_singleton] at he
              refine ⟨val, ?_, by rw [he], by rw [he]⟩
              rw [he]
              exact hl
          · intro e he
            dsimp only at he ⊢
            rcases List.mem_append.1 he with he | he
            · exact h e he
            · simp only [List.mem_singleton] at he
              refine ⟨val, ?_, by rw [he], by rw [he]⟩
              rw [he]
              exact hl

theorem svSteps_errlink (rn : Runner) (cd : ConceptDictionary) (f : String)
    (st : SVState) (l : List Step)
    (h : ErrLink st.stepValidationCache st.stepValidationErrors) :
    ErrLink (svSteps rn cd f st l).stepValidationCache
      (svSteps rn cd f st l).stepValidationErrors := by
  match l with
  | [] => exact h
  | c :: rest =>
    rw [svSteps]
    exact svSteps_errlink rn cd f _ rest (svStep_errlink rn cd f st c h)
end

mutual
theorem svStep_occ (rn : Runner) (cd : ConceptDictionary) (f : String)
    (st : SVState) (s : Step) :
    ∀ ℓ ∈ s.leaves, ∀ w,
      lookupStr (svStep rn cd f st s).stepValidationCache ℓ.Value = some (some w) →
      ∃ e ∈ (svStep rn cd f st s).stepValidationErrors, e.step = ℓ := by
  match s with
  | Step.mk i v a ic cs p =>
    rw [svStep, Step.leaves]
    by_cases hic : ic
    · rw [if_pos hic, if_pos hic]
      exact svSteps_occ rn cd f st cs
    · rw [if_neg hic, if_neg hic]
      intro ℓ hm w hw
      simp only [List.mem_singleton] at hm
      subst hm
      simp only [Step.Value] at hw
      cases hl : lookupStr st.stepValidationCache v with
      | none =>
        rw [hl] at hw
        dsimp only at hw ⊢
        rw [lookupStr_append, hl] at hw
        dsimp only at hw
        rw [lookupStr, if_pos rfl] at hw
        rw [Option.some.injEq] at hw
        cases herr : validateStep rn cd f (Step.mk i v a ic cs p) with
        | none =>
          rw [herr] at hw
          simp at hw
        | some e0 =>
          rw [herr] at hw
          refine ⟨e0, List.mem_append_right _ ?_, validateStep_step rn cd f _ e0 herr⟩
          simp [herr, Option.toList]
      | some val =>
        cases val with
        | none =>
          simp only [hl] at hw
          simp at hw
        | some val =>
          cases hp : p
          · exact ⟨_, List.mem_append_right _ (List.mem_singleton_self _), rfl⟩
          · exact ⟨_, List.mem_append_right _ (List.mem_singleton_self _), rfl⟩

theorem svSteps_occ (rn : Runner) (cd : ConceptDictionary) (f : String)
    (st : SVState) (l : List Step) :
    ∀ ℓ ∈ leavesList l, ∀ w,
      lookupStr (svSteps rn cd f st l).stepValidationCache ℓ.Value = some (some w) →
      ∃ e ∈ (svSteps rn cd f st l).stepValidationErrors, e.step = ℓ := by
  match l with
  | [] => intro ℓ hm; simp [leavesList] at hm
  | c :: rest =>
    intro ℓ hm w hw
    rw [leavesList] at hm
    rw [svSteps] at hw ⊢
    rcases List.mem_append.1 hm with hm | hm
    · have h1 := svStep_complete rn cd f st c ℓ hm
      cases hx : lookupStr (svStep rn cd f st c).stepValidationCache ℓ.Value with
      | none => rw [hx] at h1; exact Bool.noConfusion h1
      | some x =>
        have h2 := svSteps_cache_mono rn cd f _ rest ℓ.Value x hx
        rw [h2] at hw
        cases hw
        obtain ⟨e, he, hes⟩ := svStep_occ rn cd f st c ℓ hm w hx
        exact ⟨e, svSteps_errs_mono rn cd f _ rest e he, hes⟩
    · exact svSteps_occ rn cd f _ rest ℓ hm w hw
end
theorem leavesList_append (l1 l2 : List Step) :
    leavesList (l1 ++ l2) = leavesList l1 ++ leavesList l2 := by
  induction l1 with
  | nil => simp [leavesList]
  | cons c rest ih => simp [leavesList, ih]

theorem allErrs_append (l1 l2 : List (Specification × List StepValidationError)) :
    allErrs (l1 ++ l2) = allErrs l1 ++ allErrs l2 := by
  induction l1 with
  | nil => simp [allErrs]
  | cons p rest ih =>
    rw [List.cons_append, allErrs, allErrs]
    simp only [List.foldr_cons]
    have h2 : List.foldr (fun p acc => p.2 ++ acc) [] (rest ++ l2) =
        allErrs (rest ++ l2) := rfl
    rw [h2, ih, allErrs, allErrs, List.append_assoc]


theorem svSpec_eq (rn : Runner) (cd : ConceptDictionary) (st : SVState)
    (sp : Specification) :
    svSpec rn cd st sp =
      svSteps rn cd sp.FileName
        (scnFold rn cd sp.FileName
          (svSteps rn cd sp.FileName { st with stepValidationErrors := [] } sp.Contexts)
          sp.Scenarios)
        sp.TearDownSteps := rfl

theorem scnFold_cache_mono (rn : Runner) (cd : ConceptDictionary) (f : String)
    (st : SVState) (scns : List Scenario) (t : String) (x : Option StepValidationError)
    (h : lookupStr st.stepValidationCache t = some x) :
    lookupStr (scnFold rn cd f st scns).stepValidationCache t = some x := by
  induction scns generalizing st with
  | nil => exact h
  | cons scn rest ih => exact ih _ (svSteps_cache_mono rn cd f st scn.Steps t x h)

theorem scnFold_errs_mono (rn : Runner) (cd : ConceptDictionary) (f : String)
    (st : SVState) (scns : List Scenario) (e : StepValidationError)
    (h : e ∈ st.stepValidationErrors) :
    e ∈ (scnFold rn cd f st scns).stepValidationErrors := by
  induction scns generalizing st with
  | nil => exact h
  | cons scn rest ih => exact ih _ (svSteps_errs_mono rn cd f st scn.Steps e h)

theorem scnFold_calls_mono (rn : Runner) (cd : ConceptDictionary) (f : String)
    (st : SVState) (scns : List Scenario) (q : String × Nat) (h : q ∈ st.runnerCalls) :
    q ∈ (scnFold rn cd f st scns).runnerCalls := by
  induction scns generalizing st with
  | nil => exact h
  | cons scn rest ih => exact ih _ (svSteps_calls_mono rn cd f st scn.Steps q h)

theorem scnFold_inv (rn : Runner) (cd : ConceptDictionary) (f : String)
    (st : SVState) (scns : List Scenario) (h : SVInv st) :
    SVInv (scnFold rn cd f st scns) := by
  induction scns generalizing st with
  | nil => exact h
  | cons scn rest ih => exact ih _ (svSteps_inv rn cd f st scn.Steps h)

theorem scnFold_errlink (rn : Runner) (cd : ConceptDictionary) (f : String)
    (st : SVState) (scns : List Scenario)
    (h : ErrLink st.stepValidationCache st.stepValidationErrors) :
    ErrLink (scnFold rn cd f st scns).stepValidationCache
      (scnFold rn cd f st scns).stepValidationErrors := by
  induction scns generalizing st with
  | nil => exact h
  | cons scn rest ih => exact ih _ (svSteps_errlink rn cd f st scn.Steps h)

theorem scnFold_complete (rn : Runner) (cd : ConceptDictionary) (f : String)
    (st : SVState) (scns : List Scenario) :
    ∀ ℓ ∈ leavesList (scenarioSteps scns),
      (lookupStr (scnFold rn cd f st scns).stepValidationCache ℓ.Value).isSome = true := by
  induction scns generalizing st with
  | nil => intro ℓ hm; simp [scenarioSteps, leavesList] at hm
  | cons scn rest ih =>
    intro ℓ hm
    rw [scenarioSteps] at hm
    simp only [List.foldr_cons, leavesList_append, List.mem_append] at hm
    have hfold : scnFold rn cd f st (scn :: rest) =
        scnFold rn cd f (svSteps rn cd f st scn.Steps) rest := rfl
    rw [hfold]
    rcases hm with hm | hm
    · have h1 := svSteps_complete rn cd f st scn.Steps ℓ hm
      cases hx : lookupStr (svSteps rn cd f st scn.Steps).stepValidationCache ℓ.Value with
      | none => rw [hx] at h1; exact Bool.noConfusion h1
      | some x =>
        rw [scnFold_cache_mono rn cd f _ rest ℓ.Value x hx]
        rfl
    · exact ih _ ℓ hm

theorem scnFold_occ (rn : Runner) (cd : ConceptDictionary) (f : String)
    (st : SVState) (scns : List Scenario) :
    ∀ ℓ ∈ leavesList (scenarioSteps scns), ∀ w,
      lookupStr (scnFold rn cd f st scns).stepValidationCache ℓ.Value = some (some w) →
      ∃ e ∈ (scnFold rn cd f st scns).stepValidationErrors, e.step = ℓ := by
  induction scns generalizing st with
  | nil => intro ℓ hm; simp [scenarioSteps, leavesList] at hm
  | cons scn rest ih =>
    intro ℓ hm w hw
    rw [scenarioSteps] at hm
    simp only [List.foldr_cons, leavesList_append, List.mem_append] at hm
    have hfold : scnFold rn cd f st (scn :: rest) =
        scnFold rn cd f (svSteps rn cd f st scn.Steps) rest := rfl
    rw [hfold] at hw ⊢
    rcases hm with hm | hm
    · have h1 := svSteps_complete rn cd f st scn.Steps ℓ hm
      cases hx : lookupStr (svSteps rn cd f st scn.Steps).stepValidationCache ℓ.Value with
      | none => rw [hx] at h1; exact Bool.noConfusion h1
      | some x =>
        rw [scnFold_cache_mono rn cd f _ rest ℓ.Value x hx] at hw
        cases hw
        obtain ⟨e, he, hes⟩ := svSteps_occ rn cd f st scn.Steps ℓ hm w hx
        exact ⟨e, scnFold_errs_mono rn cd f _ rest e he, hes⟩
    · exact ih _ ℓ hm w hw

theorem scnFold_origin (rn : Runner) (cd : ConceptDictionary) (f : String)
    (st : SVState) (scns : List Scenario) :
    (∀ q ∈ (scnFold rn cd f st scns).runnerCalls, q ∈ st.runnerCalls ∨
       ∃ ℓ ∈ leavesList (scenarioSteps scns), ℓ.Value = q.1 ∧ ℓ.Args = q.2) ∧
    (∀ t, (lookupStr (scnFold rn cd f st scns).stepValidationCache t).isSome = true →
       (lookupStr st.stepValidationCache t).isSome = true ∨
       ∃ ℓ ∈ leavesList (scenarioSteps scns), ℓ.Value = t) ∧
    (∀ e ∈ (scnFold rn cd f st scns).stepValidationErrors, e ∈ st.stepValidationErrors ∨
       ∃ ℓ ∈ leavesList (scenarioSteps scns), e.step = ℓ) := by
  induction scns generalizing st with
  | nil =>
    exact ⟨fun q hq => Or.inl hq, fun t ht => Or.inl ht, fun e he => Or.inl he⟩
  | cons scn rest ih =>
    obtain ⟨hc1, hc2, hc3⟩ := svSteps_origin rn cd f st scn.Steps
    obtain ⟨hr1, hr2, hr3⟩ := ih (svSteps rn cd f st scn.Steps)
    have hset : leavesList (scenarioSteps (scn :: rest)) =
        leavesList scn.Steps ++ leavesList (scenarioSteps rest) := by
      rw [scenarioSteps]
      simp only [List.foldr_cons, leavesList_append]
      rfl
    have hfold : scnFold rn cd f st (scn :: rest) =
        scnFold rn cd f (svSteps rn cd f st scn.Steps) rest := rfl
    rw [hfold, hset]
    refine ⟨?_, ?_, ?_⟩
    · intro q hq
      rcases hr1 q hq with h | ⟨ℓ, hm, hh⟩
      · rcases hc1 q h with h | ⟨ℓ, hm, hh⟩
        · exact Or.inl h
        · exact Or.inr ⟨ℓ, List.mem_append_left _ hm, hh⟩
      · exact Or.inr ⟨ℓ, List.mem_append_right _ hm, hh⟩
    · intro t ht
      rcases hr2 t ht with h | ⟨ℓ, hm, hh⟩
      · rcases hc2 t h with h | ⟨ℓ, hm, hh⟩
        · exact Or.inl h
        · exact Or.inr ⟨ℓ, List.mem_append_left _ hm, hh⟩
      · exact Or.inr ⟨ℓ, List.mem_append_right _ hm, hh⟩
    · intro e he
      rcases hr3 e he with h | ⟨ℓ, hm, hh⟩
      · rcases hc3 e h with h | ⟨ℓ, hm, hh⟩
        · exact Or.inl h
        · exact Or.inr ⟨ℓ, List.mem_append_left _ hm, hh⟩
      · exact Or.inr ⟨ℓ, List.mem_append_right _ hm, hh⟩
theorem svSpec_cache_mono (rn : Runner) (cd : ConceptDictionary) (st : SVState)
    (sp : Specification) (t : String) (x : Option StepValidationError)
    (h : lookupStr st.stepValidationCache t = some x) :
    lookupStr (svSpec rn cd st sp).stepValidationCache t = some x := by
  rw [svSpec_eq]
  exact svSteps_cache_mono rn cd _ _ _ _ _
    (scnFold_cache_mono rn cd _ _ _ _ _
      (svSteps_cache_mono rn cd _ _ _ _ _ h))

theorem svSpec_calls_mono (rn : Runner) (cd : ConceptDictionary) (st : SVState)
    (sp : Specification) (q : String × Nat) (h : q ∈ st.runnerCalls) :
    q ∈ (svSpec rn cd st sp).runnerCalls := by
  rw [svSpec_eq]
  exact svSteps_calls_mono rn cd _ _ _ _
    (scnFold_calls_mono rn cd _ _ _ _
      (svSteps_calls_mono rn cd _ _ _ _ h))

theorem svSpec_inv (rn : Runner) (cd : ConceptDictionary) (st : SVState)
    (sp : Specification) (h : SVInv st) : SVInv (svSpec rn cd st sp) := by
  rw [svSpec_eq]
  exact svSteps_inv rn cd _ _ _ (scnFold_inv rn cd _ _ _ (svSteps_inv rn cd _ _ _ h))

theorem svSpec_errlink (rn : Runner) (cd : ConceptDictionary) (st : SVState)
    (sp : Specification) :
    ErrLink (svSpec rn cd st sp).stepValidationCache
      (svSpec rn cd st sp).stepValidationErrors := by
  rw [svSpec_eq]
  refine svSteps_errlink rn cd _ _ _ (scnFold_errlink rn cd _ _ _ (svSteps_errlink rn cd _ _ _ ?_))
  intro e he
  simp at he

theorem svSpec_complete (rn : Runner) (cd : ConceptDictionary) (st : SVState)
    (sp : Specification) :
    ∀ ℓ ∈ leavesList sp.allSteps,
      (lookupStr (svSpec rn cd st sp).stepValidationCache ℓ.Value).isSome = true := by
  intro ℓ hm
  rw [Specification.allSteps, leavesList_append, leavesList_append] at hm
  rw [svSpec_eq]
  rcases List.mem_append.1 hm with hm | hm
  · rcases List.mem_append.1 hm with hm | hm
    · have h1 := svSteps_complete rn cd sp.FileName
        { st with stepValidationErrors := [] } sp.Contexts ℓ hm
      cases hx : lookupStr (svSteps rn cd sp.FileName
          { st with stepValidationErrors := [] } sp.Contexts).stepValidationCache ℓ.Value with
      | none => rw [hx] at h1; exact Bool.noConfusion h1
      | some x =>
        rw [svSteps_cache_mono rn cd _ _ _ _ _ (scnFold_cache_mono rn cd _ _ _ _ _ hx)]
        rfl
    · have h1 := scnFold_complete rn cd sp.FileName
        (svSteps rn cd sp.FileName { st with stepValidationErrors := [] } sp.Contexts)
        sp.Scenarios ℓ hm
      cases hx : lookupStr (scnFold rn cd sp.FileName
          (svSteps rn cd sp.FileName { st with stepValidationErrors := [] } sp.Contexts)
          sp.Scenarios).stepValidationCache ℓ.Value with
      | none => rw [hx] at h1; exact Bool.noConfusion h1
      | some x =>
        rw [svSteps_cache_mono rn cd _ _ _ _ _ hx]
        rfl
  · exact svSteps_complete rn cd _ _ _ ℓ hm

theorem svSpec_occ (rn : Runner) (cd : ConceptDictionary) (st : SVState)
    (sp : Specification) :
    ∀ ℓ ∈ leavesList sp.allSteps, ∀ w,
      lookupStr (svSpec rn cd st sp).stepValidationCache ℓ.Value = some (some w) →
      ∃ e ∈ (svSpec rn cd st sp).stepValidationErrors, e.step = ℓ := by
  intro ℓ hm w hw
  rw [Specification.allSteps, leavesList_append, leavesList_append] at hm
  rw [svSpec_eq] at hw ⊢
  rcases List.mem_append.1 hm with hm | hm
  · rcases List.mem_append.1 hm with hm | hm
    · have h1 := svSteps_complete rn cd sp.FileName
        { st with stepValidationErrors := [] } sp.Contexts ℓ hm
      cases hx : lookupStr (svSteps rn cd sp.FileName
          { st with stepValidationErrors := [] } sp.Contexts).stepValidationCache ℓ.Value with
      | none => rw [hx] at h1; exact Bool.noConfusion h1
      | some x =>
        rw [svSteps_cache_mono rn cd _ _ _ _ _ (scnFold_cache_mono rn cd _ _ _ _ _ hx)] at hw
        cases hw
        obtain ⟨e, he, hes⟩ := svSteps_occ rn cd sp.FileName _ sp.Contexts ℓ hm w hx
        exact ⟨e, svSteps_errs_mono rn cd _ _ _ _ (scnFold_errs_mono rn cd _ _ _ _ he), hes⟩
    · have h1 := scnFold_complete rn cd sp.FileName
        (svSteps rn cd sp.FileName { st with stepValidationErrors := [] } sp.Contexts)
        sp.Scenarios ℓ hm
      cases hx : lookupStr (scnFold rn cd sp.FileName
          (svSteps rn cd sp.FileName { st with stepValidationErrors := [] } sp.Contexts)
          sp.Scenarios).stepValidationCache ℓ.Value with
      | none => rw [hx] at h1; exact Bool.noConfusion h1
      | some x =>
        rw [svSteps_cache_mono rn cd _ _ _ _ _ hx] at hw
        cases hw
        obtain ⟨e, he, hes⟩ := scnFold_occ rn cd sp.FileName _ sp.Scenarios ℓ hm w hx
        exact ⟨e, svSteps_errs_mono rn cd _ _ _ _ he, hes⟩
  · exact svSteps_occ rn cd sp.FileName _ sp.TearDownSteps ℓ hm w hw

theorem svSpec_origin (rn : Runner) (cd : ConceptDictionary) (st : SVState)
    (sp : Specification) :
    (∀ q ∈ (svSpec rn cd st sp).runnerCalls, q ∈ st.runnerCalls ∨
       ∃ ℓ ∈ leavesList sp.allSteps, ℓ.Value = q.1 ∧ ℓ.Args = q.2) ∧
    (∀ t, (lookupStr (svSpec rn cd st sp).stepValidationCache t).isSome = true →
       (lookupStr st.stepValidationCache t).isSome = true ∨
       ∃ ℓ ∈ leavesList sp.allSteps, ℓ.Value = t) ∧
    (∀ e ∈ (svSpec rn cd st sp).stepValidationErrors,
       ∃ ℓ ∈ leavesList sp.allSteps, e.step = ℓ) := by
  have hset : leavesList sp.allSteps =
      leavesList sp.Contexts ++ leavesList (scenarioSteps sp.Scenarios) ++
        leavesList sp.TearDownSteps := by
    rw [Specification.allSteps, leavesList_append, leavesList_append]
  obtain ⟨ha1, ha2, ha3⟩ := svSteps_origin rn cd sp.FileName
    { st with stepValidationErrors := [] } sp.Contexts
  obtain ⟨hb1, hb2, hb3⟩ := scnFold_origin rn cd sp.FileName
    (svSteps rn cd sp.FileName { st with stepValidationErrors := [] } sp.Contexts) sp.Scenarios
  obtain ⟨hc1, hc2, hc3⟩ := svSteps_origin rn cd sp.FileName
    (scnFold rn cd sp.FileName
      (svSteps rn cd sp.FileName { st with stepValidationErrors := [] } sp.Contexts)
      sp.Scenarios) sp.TearDownSteps
  rw [hset]
  refine ⟨?_, ?_, ?_⟩
  · intro q hq
    rw [svSpec_eq] at hq
    rcases hc1 q hq with h | ⟨ℓ, hm, hh⟩
    · rcases hb1 q h with h | ⟨ℓ, hm, hh⟩
      · rcases ha1 q h with h | ⟨ℓ, hm, hh⟩
        · exact Or.inl h
        · exact Or.inr ⟨ℓ, List.mem_append_left _ (List.mem_append_left _ hm), hh⟩
      · exact Or.inr ⟨ℓ, List.mem_append_left _ (List.mem_append_right _ hm), hh⟩
    · exact Or.inr ⟨ℓ, List.mem_append_right _ hm, hh⟩
  · intro t ht
    rw [svSpec_eq] at ht
    rcases hc2 t ht with h | ⟨ℓ, hm, hh⟩
    · rcases hb2 t h with h | ⟨ℓ, hm, hh⟩
      · rcases ha2 t h with h | ⟨ℓ, hm, hh⟩
        · exact Or.inl h
        · exact Or.inr ⟨ℓ, List.mem_append_left _ (List.mem_append_left _ hm), hh⟩
      · exact Or.inr ⟨ℓ, List.mem_append_left _ (List.mem_append_right _ hm), hh⟩
    · exact Or.inr ⟨ℓ, List.mem_append_right _ hm, hh⟩
  · intro e he
    rw [svSpec_eq] at he
    rcases hc3 e he with h | ⟨ℓ, hm, hh⟩
    · rcases hb3 e h with h | ⟨ℓ, hm, hh⟩
      · rcases ha3 e h with h | ⟨ℓ, hm, hh⟩
        · simp at h
        · exact ⟨ℓ, List.mem_append_left _ (List.mem_append_left _ hm), hh⟩
      · exact ⟨ℓ, List.mem_append_left _ (List.mem_append_right _ hm), hh⟩
    · exact ⟨ℓ, List.mem_append_right _ hm, hh⟩
theorem vvStep_snd (rn : Runner) (cd : ConceptDictionary)
    (acc : List (Specification × List StepValidationError) × SVState)
    (sp : Specification) :
    (vvStep rn cd acc sp).2 = svSpec rn cd acc.2 sp := by
  rw [vvStep]
  cases h : (svSpec rn cd acc.2 sp).stepValidationErrors <;> simp [h]

theorem vvStep_fst_mono (rn : Runner) (cd : ConceptDictionary)
    (acc : List (Specification × List StepValidationError) × SVState)
    (sp : Specification) :
    ∃ d, (vvStep rn cd acc sp).1 = acc.1 ++ d := by
  rw [vvStep]
  cases h : (svSpec rn cd acc.2 sp).stepValidationErrors with
  | nil => exact ⟨[], by simp [h]⟩
  | cons e es => exact ⟨[(sp, e :: es)], by simp [h]⟩

theorem vvStep_errs (rn : Runner) (cd : ConceptDictionary)
    (acc : List (Specification × List StepValidationError) × SVState)
    (sp : Specification) (e : StepValidationError)
    (he : e ∈ allErrs (vvStep rn cd acc sp).1) :
    e ∈ allErrs acc.1 ∨ e ∈ (svSpec rn cd acc.2 sp).stepValidationErrors := by
  rw [vvStep] at he
  cases h : (svSpec rn cd acc.2 sp).stepValidationErrors with
  | nil =>
    rw [h] at he
    exact Or.inl he
  | cons e0 es =>
    rw [h] at he
    dsimp only at he
    rw [allErrs_append] at he
    rcases List.mem_append.1 he with he | he
    · exact Or.inl he
    · right
      simpa [allErrs, h] using he

theorem vvStep_errs_intro (rn : Runner) (cd : ConceptDictionary)
    (acc : List (Specification × List StepValidationError) × SVState)
    (sp : Specification) (e : StepValidationError)
    (he : e ∈ (svSpec rn cd acc.2 sp).stepValidationErrors) :
    e ∈ allErrs (vvStep rn cd acc sp).1 := by
  rw [vvStep]
  cases h : (svSpec rn cd acc.2 sp).stepValidationErrors with
  | nil =>
    rw [h] at he
    exact absurd he (List.not_mem_nil e)
  | cons e0 es =>
    rw [h] at he
    dsimp only
    rw [allErrs_append]
    refine List.mem_append_right _ ?_
    simpa [allErrs] using he

theorem vvStep_acc_errs_mono (rn : Runner) (cd : ConceptDictionary)
    (acc : List (Specification × List StepValidationError) × SVState)
    (sp : Specification) (e : StepValidationError) (he : e ∈ allErrs acc.1) :
    e ∈ allErrs (vvStep rn cd acc sp).1 := by
  obtain ⟨d, hd⟩ := vvStep_fst_mono rn cd acc sp
  rw [hd, allErrs_append]
  exact List.mem_append_left _ he
theorem runFold_cache_mono (rn : Runner) (cd : ConceptDictionary)
    (specs : List Specification) :
    ∀ (acc : List (Specification × List StepValidationError) × SVState)
      (t : String) (x : Option StepValidationError),
      lookupStr acc.2.stepValidationCache t = some x →
      lookupStr (specs.foldl (vvStep rn cd) acc).2.stepValidationCache t = some x := by
  induction specs with
  | nil => exact fun acc t x h => h
  | cons sp rest ih =>
    intro acc t x h
    rw [List.foldl_cons]
    refine ih _ t x ?_
    rw [vvStep_snd]
    exact svSpec_cache_mono rn cd acc.2 sp t x h

theorem runFold_inv (rn : Runner) (cd : ConceptDictionary)
    (specs : List Specification) :
    ∀ (acc : List (Specification × List StepValidationError) × SVState),
      SVInv acc.2 → SVInv (specs.foldl (vvStep rn cd) acc).2 := by
  induction specs with
  | nil => exact fun acc h => h
  | cons sp rest ih =>
    intro acc h
    rw [List.foldl_cons]
    refine ih _ ?_
    rw [vvStep_snd]
    exact svSpec_inv rn cd acc.2 sp h

theorem runFold_acc_mono (rn : Runner) (cd : ConceptDictionary)
    (specs : List Specification) :
    ∀ (acc : List (Specification × List StepValidationError) × SVState)
      (e : StepValidationError), e ∈ allErrs acc.1 →
      e ∈ allErrs (specs.foldl (vvStep rn cd) acc).1 := by
  induction specs with
  | nil => exact fun acc e h => h
  | cons sp rest ih =>
    intro acc e h
    rw [List.foldl_cons]
    exact ih _ e (vvStep_acc_errs_mono rn cd acc sp e h)

theorem runFold_errlink (rn : Runner) (cd : ConceptDictionary)
    (specs : List Specification) :
    ∀ (acc : List (Specification × List StepValidationError) × SVState),
      ErrLink acc.2.stepValidationCache (allErrs acc.1) →
      ErrLink (specs.foldl (vvStep rn cd) acc).2.stepValidationCache
        (allErrs (specs.foldl (vvStep rn cd) acc).1) := by
  induction specs with
  | nil => exact fun acc h => h
  | cons sp rest ih =>
    intro acc h
    rw [List.foldl_cons]
    refine ih _ ?_
    intro e he
    rcases vvStep_errs rn cd acc sp e he with he | he
    · obtain ⟨w, hw, h1, h2⟩ := h e he
      refine ⟨w, ?_, h1, h2⟩
      rw [vvStep_snd]
      exact svSpec_cache_mono rn cd acc.2 sp _ _ hw
    · obtain ⟨w, hw, h1, h2⟩ := svSpec_errlink rn cd acc.2 sp e he
      refine ⟨w, ?_, h1, h2⟩
      rw [vvStep_snd]
      exact hw

theorem runFold_complete (rn : Runner) (cd : ConceptDictionary)
    (specs : List Specification) :
    ∀ (acc : List (Specification × List StepValidationError) × SVState),
      ∀ ℓ ∈ runLeaves specs,
        (lookupStr (specs.foldl (vvStep rn cd) acc).2.stepValidationCache ℓ.Value).isSome
          = true := by
  induction specs with
  | nil =>
    intro acc ℓ hm
    simp [runLeaves] at hm
  | cons sp rest ih =>
    intro acc ℓ hm
    rcases List.mem_append.1 hm with hm | hm
    · rw [List.foldl_cons]
      have h1 := svSpec_complete rn cd acc.2 sp ℓ hm
      cases hx : lookupStr (svSpec rn cd acc.2 sp).stepValidationCache ℓ.Value with
      | none => rw [hx] at h1; exact Bool.noConfusion h1
      | some x =>
        have := runFold_cache_mono rn cd rest (vvStep rn cd acc sp) ℓ.Value x
          (by rw [vvStep_snd]; exact hx)
        rw [this]
        rfl
    · rw [List.foldl_cons]
      exact ih _ ℓ hm

theorem runFold_occ (rn : Runner) (cd : ConceptDictionary)
    (specs : List Specification) :
    ∀ (acc : List (Specification × List StepValidationError) × SVState),
      ∀ ℓ ∈ runLeaves specs, ∀ w,
        lookupStr (specs.foldl (vvStep rn cd) acc).2.stepValidationCache ℓ.Value
          = some (some w) →
        ∃ e ∈ allErrs (specs.foldl (vvStep rn cd) acc).1, e.step = ℓ := by
  induction specs with
  | nil =>
    intro acc ℓ hm
    simp [runLeaves] at hm
  | cons sp rest ih =>
    intro acc ℓ hm w hw
    rw [List.foldl_cons] at hw ⊢
    rcases List.mem_append.1 hm with hm | hm
    · have h1 := svSpec_complete rn cd acc.2 sp ℓ hm
      cases hx : lookupStr (svSpec rn cd acc.2 sp).stepValidationCache ℓ.Value with
      | none => rw [hx] at h1; exact Bool.noConfusion h1
      | some x =>
        have h2 := runFold_cache_mono rn cd rest (vvStep rn cd acc sp) ℓ.Value x
          (by rw [vvStep_snd]; exact hx)
        rw [h2] at hw
        cases hw
        obtain ⟨e, he, hes⟩ := svSpec_occ rn cd acc.2 sp ℓ hm w hx
        refine ⟨e, ?_, hes⟩
        exact runFold_acc_mono rn cd rest _ e (vvStep_errs_intro rn cd acc sp e he)
    · exact ih _ ℓ hm w hw

theorem runFold_origin (rn : Runner) (cd : ConceptDictionary)
    (specs : List Specification) :
    ∀ (acc : List (Specification × List StepValidationError) × SVState),
      (∀ q ∈ (specs.foldl (vvStep rn cd) acc).2.runnerCalls, q ∈ acc.2.runnerCalls ∨
         ∃ ℓ ∈ runLeaves specs, ℓ.Value = q.1 ∧ ℓ.Args = q.2) ∧
      (∀ t, (lookupStr (specs.foldl (vvStep rn cd) acc).2.stepValidationCache t).isSome
          = true →
         (lookupStr acc.2.stepValidationCache t).isSome = true ∨
         ∃ ℓ ∈ runLeaves specs, ℓ.Value = t) ∧
      (∀ e ∈ allErrs (specs.foldl (vvStep rn cd) acc).1, e ∈ allErrs acc.1 ∨
         ∃ ℓ ∈ runLeaves specs, e.step = ℓ) := by
  induction specs with
  | nil =>
    exact fun acc => ⟨fun q hq => Or.inl hq, fun t ht => Or.inl ht, fun e he => Or.inl he⟩
  | cons sp rest ih =>
    intro acc
    obtain ⟨hr1, hr2, hr3⟩ := ih (vvStep rn cd acc sp)
    obtain ⟨hs1, hs2, hs3⟩ := svSpec_origin rn cd acc.2 sp
    have hleaves : runLeaves (sp :: rest) = leavesList sp.allSteps ++ runLeaves rest := rfl
    rw [hleaves]
    refine ⟨?_, ?_, ?_⟩
    · intro q hq
      rw [List.foldl_cons] at hq
      rcases hr1 q hq with h | ⟨ℓ, hm, hh⟩
      · rw [vvStep_snd] at h
        rcases hs1 q h with h | ⟨ℓ, hm, hh⟩
        · exact Or.inl h
        · exact Or.inr ⟨ℓ, List.mem_append_left _ hm, hh⟩
      · exact Or.inr ⟨ℓ, List.mem_append_right _ hm, hh⟩
    · intro t ht
      rw [List.foldl_cons] at ht
      rcases hr2 t ht with h | ⟨ℓ, hm, hh⟩
      · rw [vvStep_snd] at h
        rcases hs2 t h with h | ⟨ℓ, hm, hh⟩
        · exact Or.inl h
        · exact Or.inr ⟨ℓ, List.mem_append_left _ hm, hh⟩
      · exact Or.inr ⟨ℓ, List.mem_append_right _ hm, hh⟩
    · intro e he
      rw [List.foldl_cons] at he
      rcases hr3 e he with h | ⟨ℓ, hm, hh⟩
      · rcases vvStep_errs rn cd acc sp e h with h | h
        · exact Or.inl h
        · obtain ⟨ℓ, hm, hh⟩ := hs3 e h
          exact Or.inr ⟨ℓ, List.mem_append_left _ hm, hh⟩
      · exact Or.inr ⟨ℓ, List.mem_append_right _ hm, hh⟩
theorem filter_eq_singleton_length {α : Type} [DecidableEq α] {l : List α} {x : α}
    (hnd : l.Nodup) (hx : x ∈ l) : (l.filter (fun y => y = x)).length = 1 := by
  induction l with
  | nil => simp at hx
  | cons a rest ih =>
    rcases List.mem_cons.1 hx with h | h
    · rw [List.filter_cons_of_pos (by rw [← h]; simp)]
      have hfil : rest.filter (fun y => y = x) = [] := by
        rw [List.filter_eq_nil_iff]
        intro y hy
        simp only [decide_eq_true_eq]
        intro hyx
        rw [hyx, h] at hy
        exact (List.nodup_cons.1 hnd).1 hy
      rw [hfil]
      rfl
    · have hne : a ≠ x := by
        intro he
        subst he
        exact (List.nodup_cons.1 hnd).1 h
      rw [List.filter_cons_of_neg (by simpa using hne)]
      exact ih (List.nodup_cons.1 hnd).2 h

theorem runLeaves_nonconcept (specs : List Specification) :
    ∀ ℓ ∈ runLeaves specs, ℓ.IsConcept = false := by
  induction specs with
  | nil => intro ℓ hm; simp [runLeaves] at hm
  | cons sp rest ih =>
    intro ℓ hm
    rcases List.mem_append.1 hm with hm | hm
    · exact leavesList_nonconcept _ ℓ hm
    · exact ih ℓ hm

theorem init_inv : SVInv (⟨[], [], []⟩ : SVState) := by
  constructor
  · simp
  · intro t
    simp [lookupStr]

/-- C1: memoization of the validation cache.  In one `validator.validate`
run the round-trip texts are pairwise distinct; under the parser's invariant
that equal value-text implies equal parameter count (the normalized text
contains one placeholder per argument), every (text, count) pair carried by
some validated leaf is sent to the runner exactly once; all recorded errors
for steps sharing a value-text agree in message and error kind; and leaves
sharing a value-text either all have a recorded error or none does. -/
theorem claim_C1_memoization (rn : Runner) (cd : ConceptDictionary)
    (specs : List Specification)
    (hconsist : ∀ ℓ1 ∈ runLeaves specs, ∀ ℓ2 ∈ runLeaves specs,
      ℓ1.Value = ℓ2.Value → ℓ1.Args = ℓ2.Args) :
    ((validatorValidate rn cd specs).2.runnerCalls.map Prod.fst).Nodup ∧
    (∀ t a, (∃ ℓ ∈ runLeaves specs, ℓ.Value = t ∧ ℓ.Args = a) →
      ((validatorValidate rn cd specs).2.runnerCalls.filter
        (fun q => q = (t, a))).length = 1) ∧
    (∀ e1 ∈ allErrs (validatorValidate rn cd specs).1,
     ∀ e2 ∈ allErrs (validatorValidate rn cd specs).1,
      e1.step.Value = e2.step.Value →
        e1.message = e2.message ∧ e1.errorType = e2.errorType) ∧
    (∀ s1 ∈ runLeaves specs, ∀ s2 ∈ runLeaves specs, s1.Value = s2.Value →
      ((∃ e ∈ allErrs (validatorValidate rn cd specs).1, e.step = s1) ↔
       (∃ e ∈ allErrs (validatorValidate rn cd specs).1, e.step = s2))) := by
  have hinv : SVInv (validatorValidate rn cd specs).2 :=
    runFold_inv rn cd specs ([], ⟨[], [], []⟩) init_inv
  have hlink : ErrLink (validatorValidate rn cd specs).2.stepValidationCache
      (allErrs (validatorValidate rn cd specs).1) := by
    refine runFold_errlink rn cd specs ([], ⟨[], [], []⟩) ?_
    intro e he
    simp [allErrs] at he
  refine ⟨hinv.1, ?_, ?_, ?_⟩
  · intro t a ⟨ℓ, hmem, hv, ha⟩
    have hsome := runFold_complete rn cd specs ([], ⟨[], [], []⟩) ℓ hmem
    rw [hv] at hsome
    have ht : t ∈ (validatorValidate rn cd specs).2.runnerCalls.map Prod.fst :=
      (hinv.2 t).1 hsome
    obtain ⟨q, hq, hqt⟩ := List.mem_map.1 ht
    rcases (runFold_origin rn cd specs ([], ⟨[], [], []⟩)).1 q hq with h | ⟨ℓ', hm', hv', ha'⟩
    · simp at h
    · have hva : ℓ'.Value = ℓ.Value := by rw [hv', hqt, hv]
      have hargs := hconsist ℓ' hm' ℓ hmem hva
      have hq2 : q = (t, a) := by
        obtain ⟨q1, q2⟩ := q
        simp only [Prod.mk.injEq]
        constructor
        · exact hqt
        · rw [← ha, ← hargs, ha']
      rw [hq2] at hq
      have hnd : (validatorValidate rn cd specs).2.runnerCalls.Nodup :=
        hinv.1.of_map
      exact filter_eq_singleton_length hnd hq
  · intro e1 he1 e2 he2 hv
    obtain ⟨w1, hw1, hm1, ht1⟩ := hlink e1 he1
    obtain ⟨w2, hw2, hm2, ht2⟩ := hlink e2 he2
    rw [hv, hw2] at hw1
    cases hw1
    exact ⟨hm1.symm.trans hm2, ht1.symm.trans ht2⟩
  · intro s1 hs1 s2 hs2 hv
    have hdir : ∀ u1 ∈ runLeaves specs, ∀ u2 ∈ runLeaves specs, u1.Value = u2.Value →
        (∃ e ∈ allErrs (validatorValidate rn cd specs).1, e.step = u1) →
        (∃ e ∈ allErrs (validatorValidate rn cd specs).1, e.step = u2) := by
      intro u1 hu1 u2 hu2 huv ⟨e, he, hstep⟩
      obtain ⟨w, hw, hm, ht⟩ := hlink e he
      rw [hstep, huv] at hw
      exact runFold_occ rn cd specs ([], ⟨[], [], []⟩) u2 hu2 w hw
    exact ⟨hdir s1 hs1 s2 hs2 hv, hdir s2 hs2 s1 hs1 hv.symm⟩

/-- C5: a concept step is never itself validated: encountering it the visitor
recurses into its body; every runner round-trip, every cache key and every
recorded outcome of a run belongs to a literal (non-concept) leaf step. -/
theorem claim_C5_concept_never_validated (rn : Runner) (cd : ConceptDictionary)
    (specs : List Specification) :
    (∀ (f : String) (st : SVState) (s : Step), s.IsConcept = true →
      svStep rn cd f st s = svSteps rn cd f st s.ConceptSteps) ∧
    (∀ q ∈ (validatorValidate rn cd specs).2.runnerCalls,
      ∃ ℓ ∈ runLeaves specs, ℓ.IsConcept = false ∧ ℓ.Value = q.1 ∧ ℓ.Args = q.2) ∧
    (∀ t, (lookupStr (validatorValidate rn cd specs).2.stepValidationCache t).isSome
        = true →
      ∃ ℓ ∈ runLeaves specs, ℓ.IsConcept = false ∧ ℓ.Value = t) ∧
    (∀ e ∈ allErrs (validatorValidate rn cd specs).1,
      ∃ ℓ ∈ runLeaves specs, ℓ.IsConcept = false ∧ e.step = ℓ) := by
  obtain ⟨ho1, ho2, ho3⟩ := runFold_origin rn cd specs ([], ⟨[], [], []⟩)
  refine ⟨?_, ?_, ?_, ?_⟩
  · intro f st s hs
    match s with
    | Step.mk i v a ic cs p =>
      simp only [Step.IsConcept] at hs
      rw [svStep, if_pos hs]
      rfl
  · intro q hq
    rcases ho1 q hq with h | ⟨ℓ, hm, hh1, hh2⟩
    · simp at h
    · exact ⟨ℓ, hm, runLeaves_nonconcept specs ℓ hm, hh1, hh2⟩
  · intro t ht
    rcases ho2 t ht with h | ⟨ℓ, hm, hh⟩
    · simp [lookupStr] at h
    · exact ⟨ℓ, hm, runLeaves_nonconcept specs ℓ hm, hh⟩
  · intro e he
    rcases ho3 e he with h | ⟨ℓ, hm, hh⟩
    · simp [allErrs] at h
    · exact ⟨ℓ, hm, runLeaves_nonconcept specs ℓ hm, hh⟩
/-- Witness for C1 at a concrete run: one spec whose scenario holds a literal
"a" step and a concept expanding to another "a" step; the runner is called
exactly once for ("a", 2). -/
theorem claim_C1_memoization_witness :
    ((validatorValidate wRunner wCD [wSpec]).2.runnerCalls.map Prod.fst).Nodup ∧
    ((validatorValidate wRunner wCD [wSpec]).2.runnerCalls.filter
      (fun q => q = ("a", 2))).length = 1 := by
  have h := claim_C1_memoization wRunner wCD [wSpec] (by decide)
  exact ⟨h.1, h.2.1 "a" 2 (by decide)⟩

/-- Witness for C5 at the same concrete run: the single round-trip performed
belongs to a literal leaf step. -/
theorem claim_C5_concept_never_validated_witness :
    ∃ ℓ ∈ runLeaves [wSpec], ℓ.IsConcept = false ∧ ℓ.Value = "a" ∧ ℓ.Args = 2 := by
  have h := claim_C5_concept_never_validated wRunner wCD [wSpec]
  exact h.2.1 ("a", 2) (by decide)

/-- C2: an invalid outcome for a literal step reached through a concept
(`Parent` set) is attributed to the defining file of the concept found by
looking the parent's value-text up in the dictionary — on a fresh runner
response and on a cache hit alike, and independently of the validating
spec's file. -/
theorem claim_C2_concept_attribution (rn : Runner) (cd : ConceptDictionary)
    (f : String) (s : Step) (pv : String) (cpt : Concept)
    (hp : s.Parent = some pv) (hcpt : Search cd pv = some cpt) :
    (∀ etName et,
      rn.respond s.Value s.Args = .reply .stepValidateResponse false etName et →
      validateStep rn cd f s = some ⟨s, getMessage etName, cpt.FileName, some et⟩) ∧
    (∀ (st : SVState) (val : StepValidationError),
      s.IsConcept = false →
      lookupStr st.stepValidationCache s.Value = some (some val) →
      (svStep rn cd f st s).stepValidationErrors =
        st.stepValidationErrors ++ [⟨s, val.message, cpt.FileName, val.errorType⟩]) := by
  have hfile : SearchFileName cd pv = cpt.FileName := by
    rw [SearchFileName, hcpt]
  constructor
  · intro etName et hresp
    rw [validateStep_invalid rn cd f s etName et hresp, hp]
    dsimp only
    rw [hfile]
  · intro st val hic hl
    match s, hp with
    | Step.mk i v a ic cs (some pv), rfl =>
      simp only [Step.IsConcept] at hic
      simp only [Step.Value] at hl
      rw [svStep, if_neg (by rw [hic]; exact Bool.false_ne_true), hl]
      dsimp only
      rw [hfile]

/-- Witness for C2: the concept-expanded "a" step is attributed to
"concept.cpt", not to the validating spec's file. -/
theorem claim_C2_concept_attribution_witness :
    validateStep wRunner wCD "s1.spec" wLeafA2 =
      some ⟨wLeafA2, "Step implementation not found", "concept.cpt", some 0⟩ ∧
    (svStep wRunner wCD "other.spec"
        ⟨[("a", some ⟨wLeafA, "Step implementation not found", "s1.spec", some 0⟩)], [], []⟩
        wLeafA2).stepValidationErrors =
      [⟨wLeafA2, "Step implementation not found", "concept.cpt", some 0⟩] := by
  have h := claim_C2_concept_attribution wRunner wCD "s1.spec" wLeafA2 "mycpt"
    ⟨"concept.cpt"⟩ (by decide) (by decide)
  have h2 := claim_C2_concept_attribution wRunner wCD "other.spec" wLeafA2 "mycpt"
    ⟨"concept.cpt"⟩ (by decide) (by decide)
  constructor
  · have := h.1 "STEP_IMPLEMENTATION_NOT_FOUND" 0 (by decide)
    rw [this]
    decide
  · have := h2.2 ⟨[("a", some ⟨wLeafA, "Step implementation not found", "s1.spec", some 0⟩)], [], []⟩
      ⟨wLeafA, "Step implementation not found", "s1.spec", some 0⟩ (by decide) (by decide)
    rw [this]
    decide
/-- C6: a reply whose message type is not the step-validation response type
yields the fixed "Invalid response from runner for Validation request" error
with the sentinel error kind `invalidResponse = -1`, attributed to the
validating spec's file; the visitor still validates every leaf of the
following steps, so the run is not aborted. -/
theorem claim_C6_protocol_violation (rn : Runner) (cd : ConceptDictionary)
    (f : String) (s : Step) (mt : GaugeMessageType) (iv : Bool) (etName : String)
    (et : StepValidateResponse_ErrorType)
    (hresp : rn.respond s.Value s.Args = .reply mt iv etName et)
    (hmt : mt ≠ .stepValidateResponse) :
    validateStep rn cd f s =
      some ⟨s, "Invalid response from runner for Validation request", f,
            some invalidResponse⟩ ∧
    invalidResponse = -1 ∧
    (∀ (st : SVState) (rest : List Step), ∀ ℓ ∈ leavesList rest,
      (lookupStr (svSteps rn cd f st (s :: rest)).stepValidationCache ℓ.Value).isSome
        = true) := by
  refine ⟨validateStep_invalidResponse rn cd f s mt iv etName et hresp hmt, rfl, ?_⟩
  intro st rest ℓ hm
  rw [svSteps]
  exact svSteps_complete rn cd f _ rest ℓ hm

/-- Witness for C6: the "b" step's reply has message type `other 99`; it gets
the fixed invalid-response error and the following "a" step is still
validated. -/
theorem claim_C6_protocol_violation_witness :
    validateStep wRunner wCD "s1.spec" wLeafB =
      some ⟨wLeafB, "Invalid response from runner for Validation request", "s1.spec",
            some (-1)⟩ ∧
    (lookupStr (svSteps wRunner wCD "s1.spec" ⟨[], [], []⟩
        [wLeafB, wLeafA]).stepValidationCache "a").isSome = true := by
  have h := claim_C6_protocol_violation wRunner wCD "s1.spec" wLeafB (.other 99) true "" 0
    (by decide) (by decide)
  refine ⟨by rw [h.1]; rfl, ?_⟩
  have h2 := h.2.2 ⟨[], [], []⟩ [wLeafA] wLeafA (by decide)
  exact h2

/-- C10: a transport-level failure of the round-trip produces an error whose
message is the transport error's text, with a nil error kind, attributed to
the validating spec's file even when the step has a `Parent`; a
worker-reported invalid outcome of a parented step is instead attributed to
the concept's file. -/
theorem claim_C10_transport_attribution (rn : Runner) (cd : ConceptDictionary)
    (f : String) (s : Step) (em : String)
    (hresp : rn.respond s.Value s.Args = .transportError em) :
    validateStep rn cd f s = some ⟨s, em, f, none⟩ ∧
    (∀ (s2 : Step) (pv : String) (cpt : Concept) (etName : String)
       (et : StepValidateResponse_ErrorType), s2.Parent = some pv →
      Search cd pv = some cpt →
      rn.respond s2.Value s2.Args = .reply .stepValidateResponse false etName et →
      validateStep rn cd f s2 = some ⟨s2, getMessage etName, cpt.FileName, some et⟩) := by
  refine ⟨validateStep_transport rn cd f s em hresp, ?_⟩
  intro s2 pv cpt etName et hp hcpt hresp2
  rw [validateStep_invalid rn cd f s2 etName et hresp2, hp]
  dsimp only
  rw [SearchFileName, hcpt]

/-- Witness for C10: the "c" step has a `Parent`, yet its transport failure
is attributed to the validating spec's file "s1.spec". -/
theorem claim_C10_transport_attribution_witness :
    validateStep wRunner wCD "s1.spec" wLeafC =
      some ⟨wLeafC, "connection refused", "s1.spec", none⟩ ∧ wLeafC.Parent = some "mycpt" := by
  have h := claim_C10_transport_attribution wRunner wCD "s1.spec" wLeafC
    "connection refused" (by decide)
  exact ⟨h.1, by decide⟩

/-- C9: the rendering of the runner's error-kind name (underscore-to-space,
lower-case, capitalize the first character) agrees with the spec's
description on every name, and it is purely presentational: the stored
error-kind is the runner's original enum value. -/
theorem claim_C9_error_kind_rendering (m : String) (rn : Runner)
    (cd : ConceptDictionary) (f : String) (s : Step) (etName : String)
    (et : StepValidateResponse_ErrorType)
    (hresp : rn.respond s.Value s.Args = .reply .stepValidateResponse false etName et) :
    getMessage m = specRenderErrorKind m ∧
    ∃ e, validateStep rn cd f s = some e ∧ e.message = getMessage etName ∧
      e.errorType = some et := by
  refine ⟨getMessage_eq_spec m, ?_⟩
  rw [validateStep_invalid rn cd f s etName et hresp]
  cases hp : s.Parent <;> exact ⟨_, rfl, rfl, rfl⟩

/-- Witness for C9 at the enum name the concrete runner reports. -/
theorem claim_C9_error_kind_rendering_witness :
    getMessage "STEP_IMPLEMENTATION_NOT_FOUND" =
      specRenderErrorKind "STEP_IMPLEMENTATION_NOT_FOUND" ∧
    ∃ e, validateStep wRunner wCD "s1.spec" wLeafA = some e ∧
      e.message = getMessage "STEP_IMPLEMENTATION_NOT_FOUND" ∧ e.errorType = some 0 := by
  exact claim_C9_error_kind_rendering "STEP_IMPLEMENTATION_NOT_FOUND" wRunner wCD
    "s1.spec" wLeafA "STEP_IMPLEMENTATION_NOT_FOUND" 0 (by decide)
/-- C8: `ValidateTableRowsRange` returns the zero-based pair `(s-1, e-1)`
with no error exactly when both bounds parse and `1 ≤ s`, `1 ≤ e`, `s ≤ e`,
`e ≤ rowCount`; in every other case — non-numeric input, `s > e`,
`e > rowCount`, or a bound below 1 — it returns `(0, 0)` with the single
generic message. -/
theorem claim_C8_table_rows_range (start : String) (endS : String) (rowCount : Int) :
    (∀ s e : Int, atoi start = some s → atoi endS = some e →
      1 ≤ s → 1 ≤ e → s ≤ e → e ≤ rowCount →
      ValidateTableRowsRange start endS rowCount = (s - 1, e - 1, none)) ∧
    ((atoi start = none ∨ atoi endS = none ∨
      (∃ s e : Int, atoi start = some s ∧ atoi endS = some e ∧
        (s > e ∨ e > rowCount ∨ s < 1 ∨ e < 1))) →
      ValidateTableRowsRange start endS rowCount =
        (0, 0, some "Table rows range validation failed.")) := by
  constructor
  · intro s e hs he h1 h2 h3 h4
    rw [ValidateTableRowsRange, hs, he]
    dsimp only
    rw [if_neg (by omega)]
  · intro hfail
    rcases hfail with hs | he | ⟨s, e, hs, he, hbad⟩
    · rw [ValidateTableRowsRange, hs]
    · cases hs : atoi start with
      | none => rw [ValidateTableRowsRange, hs]
      | some s => rw [ValidateTableRowsRange, hs, he]
    · rw [ValidateTableRowsRange, hs, he]
      dsimp only
      rw [if_pos (by omega)]

/-- Witness for C8: the spec's five concrete examples. -/
theorem claim_C8_table_rows_range_witness :
    ValidateTableRowsRange "2" "4" 10 = (1, 3, none) ∧
    ValidateTableRowsRange "4" "2" 10 = (0, 0, some "Table rows range validation failed.") ∧
    ValidateTableRowsRange "0" "2" 10 = (0, 0, some "Table rows range validation failed.") ∧
    ValidateTableRowsRange "2" "11" 10 = (0, 0, some "Table rows range validation failed.") ∧
    ValidateTableRowsRange "x" "2" 10 = (0, 0, some "Table rows range validation failed.") := by
  refine ⟨?_, ?_, ?_, ?_, ?_⟩
  · exact (claim_C8_table_rows_range "2" "4" 10).1 2 4 (by decide) (by decide)
      (by decide) (by decide) (by decide) (by decide)
  · exact (claim_C8_table_rows_range "4" "2" 10).2
      (Or.inr (Or.inr ⟨4, 2, by decide, by decide, by decide⟩))
  · exact (claim_C8_table_rows_range "0" "2" 10).2
      (Or.inr (Or.inr ⟨0, 2, by decide, by decide, by decide⟩))
  · exact (claim_C8_table_rows_range "2" "11" 10).2
      (Or.inr (Or.inr ⟨2, 11, by decide, by decide, by decide⟩))
  · exact (claim_C8_table_rows_range "x" "2" 10).2 (Or.inl (by decide))
/-- Counterexample to C7 as stated: with spec parsing failed
(`specsFailed = true`) but no concept-parse critical errors, `ValidateSpecs`
reports "Parsing failed." — yet the runner HAS been started and a step
validation round-trip HAS been performed before that result is returned
(validate.go starts the API and runs `validator.validate` before checking
`specsFailed || !res.Ok`). -/
theorem claim_C7_counterexample :
    (ValidateSpecs none [] true [wSpec2] true wRunner wCD).Errs = ["Parsing failed."] ∧
    (ValidateSpecs none [] true [wSpec2] true wRunner wCD).runnerStarted = true ∧
    (ValidateSpecs none [] true [wSpec2] true wRunner wCD).runnerCalls = [("step1", 0)] := by
  decide

/-- C7 amended: only concept-parse critical errors abort before the runner is
started (and then no round-trip happens); when spec parsing failed or the
concept-parse result is not Ok, `ValidateSpecs` still reports a parse
failure, but only after starting the runner and validating (the runner is
then killed). -/
theorem claim_C7_amended (manifestError : Option String)
    (conceptCriticalErrors : List String) (conceptResOk : Bool)
    (specs : List Specification) (specsFailed : Bool) (rn : Runner)
    (cd : ConceptDictionary) :
    (manifestError = none → conceptCriticalErrors ≠ [] →
      ValidateSpecs manifestError conceptCriticalErrors conceptResOk specs specsFailed rn cd
        = ⟨conceptCriticalErrors, none, none, false, false, []⟩) ∧
    (manifestError = none → conceptCriticalErrors = [] →
      (specsFailed = true ∨ conceptResOk = false) →
      (ValidateSpecs manifestError conceptCriticalErrors conceptResOk specs specsFailed rn
          cd).Errs = ["Parsing failed."] ∧
      (ValidateSpecs manifestError conceptCriticalErrors conceptResOk specs specsFailed rn
          cd).runnerStarted = true ∧
      (ValidateSpecs manifestError conceptCriticalErrors conceptResOk specs specsFailed rn
          cd).runnerKilled = true) := by
  constructor
  · intro hm hc
    subst hm
    rw [ValidateSpecs]
    rw [if_pos hc]
  · intro hm hc hfail
    subst hm hc
    rw [ValidateSpecs]
    rw [if_neg (by simp)]
    have hcond : specsFailed = true ∨ conceptResOk = false := hfail
    rw [if_pos hcond]
    exact ⟨rfl, rfl, rfl⟩

/-- Witness for the amended C7: a concept-parse critical error returns before
any runner interaction; a failed spec parse still reports "Parsing failed."
with the runner started. -/
theorem claim_C7_amended_witness :
    ValidateSpecs none ["bad concept"] true [wSpec2] false wRunner wCD
      = ⟨["bad concept"], none, none, false, false, []⟩ ∧
    (ValidateSpecs none [] true [wSpec2] true wRunner wCD).Errs = ["Parsing failed."] ∧
    (ValidateSpecs none [] true [wSpec2] true wRunner wCD).runnerStarted = true := by
  have h1 := (claim_C7_amended none ["bad concept"] true [wSpec2] false wRunner wCD).1
    rfl (by decide)
  have h2 := (claim_C7_amended none [] true [wSpec2] true wRunner wCD).2
    rfl rfl (Or.inl rfl)
  exact ⟨h1, h2.1, h2.2.1⟩




theorem buildStepErrs_eq (em : ValidationErrMaps) (errs : List StepValidationError) :
    buildStepErrs em errs =
      errs.foldl (fun m err => { m with StepErrs := upsert m.StepErrs err.step.Id err }) em :=
  rfl

theorem buildStepErrs_fields (em : ValidationErrMaps) (errs : List StepValidationError) :
    (buildStepErrs em errs).SpecErrs = em.SpecErrs ∧
    (buildStepErrs em errs).ScenarioErrs = em.ScenarioErrs := by
  induction errs generalizing em with
  | nil => exact ⟨rfl, rfl⟩
  | cons e rest ih =>
    simp only [buildStepErrs] at ih ⊢
    simpa using ih { em with StepErrs := upsert em.StepErrs e.step.Id e }

theorem buildStepErrs_lookup (em : ValidationErrMaps) (errs : List StepValidationError)
    (k : Nat) :
    (lookupN (buildStepErrs em errs).StepErrs k).isSome = true ↔
      (∃ e ∈ errs, e.step.Id = k) ∨ (lookupN em.StepErrs k).isSome = true := by
  induction errs generalizing em with
  | nil => simp [buildStepErrs]
  | cons e rest ih =>
    simp only [buildStepErrs, List.foldl_cons]
    have h2 := ih { em with StepErrs := upsert em.StepErrs e.step.Id e }
    simp only [buildStepErrs] at h2
    rw [h2]
    by_cases hk : e.step.Id = k
    · simp only [hk, lookupN_upsert_self]
      constructor
      · intro h3
        exact Or.inl ⟨e, List.mem_cons_self e rest, hk⟩
      · intro h3
        exact Or.inr rfl
    · rw [lookupN_upsert_ne _ _ (fun hh => hk hh.symm)]
      constructor
      · rintro (h3 | h3)
        · obtain ⟨e2, hm, hid⟩ := h3
          exact Or.inl ⟨e2, List.mem_cons_of_mem e hm, hid⟩
        · exact Or.inr h3
      · rintro (h3 | h3)
        · obtain ⟨e2, hm, hid⟩ := h3
          rcases List.mem_cons.1 hm with hh | hh
          · subst hh
            exact absurd hid hk
          · exact Or.inl ⟨e2, hh, hid⟩
        · exact Or.inr h3
mutual
theorem fillScn_frame (scnId : Nat) (em : ValidationErrMaps) (l : List Step) :
    (fillScenarioErrors scnId em l).StepErrs = em.StepErrs ∧
    (fillScenarioErrors scnId em l).SpecErrs = em.SpecErrs ∧
    (∀ k, k ≠ scnId →
      lookupN (fillScenarioErrors scnId em l).ScenarioErrs k =
        lookupN em.ScenarioErrs k) := by
  match l with
  | [] => exact ⟨rfl, rfl, fun k hk => rfl⟩
  | s :: rest =>
    rw [fillScenarioErrors]
    obtain ⟨h1, h2, h3⟩ := fillScnStep_frame scnId em s
    obtain ⟨g1, g2, g3⟩ := fillScn_frame scnId (fillScenarioStep scnId em s) rest
    exact ⟨g1.trans h1, g2.trans h2, fun k hk => (g3 k hk).trans (h3 k hk)⟩

theorem fillScnStep_frame (scnId : Nat) (em : ValidationErrMaps) (s : Step) :
    (fillScenarioStep scnId em s).StepErrs = em.StepErrs ∧
    (fillScenarioStep scnId em s).SpecErrs = em.SpecErrs ∧
    (∀ k, k ≠ scnId →
      lookupN (fillScenarioStep scnId em s).ScenarioErrs k =
        lookupN em.ScenarioErrs k) := by
  match s with
  | Step.mk i v a ic cs p =>
    rw [fillScenarioStep]
    by_cases hic : ic
    · rw [if_pos hic]
      obtain ⟨h1, h2, h3⟩ := fillScn_frame scnId em cs
      cases hl : lookupN (fillScenarioErrors scnId em cs).StepErrs i with
      | none => exact ⟨h1, h2, h3⟩
      | some err =>
        refine ⟨h1, h2, fun k hk => ?_⟩
        dsimp only
        rw [lookupN_appendEntry_ne _ _ hk]
        exact h3 k hk
    · rw [if_neg hic]
      cases hl : lookupN em.StepErrs i with
      | none => exact ⟨rfl, rfl, fun k hk => rfl⟩
      | some err =>
        refine ⟨rfl, rfl, fun k hk => ?_⟩
        dsimp only
        rw [lookupN_appendEntry_ne _ _ hk]
end

mutual
theorem fillScn_some (scnId : Nat) (em : ValidationErrMaps) (l : List Step) :
    (lookupN (fillScenarioErrors scnId em l).ScenarioErrs scnId).isSome = true ↔
      (lookupN em.ScenarioErrs scnId).isSome = true ∨
      ∃ u ∈ expandAll l, (lookupN em.StepErrs u.Id).isSome = true := by
  match l with
  | [] =>
    rw [fillScenarioErrors, expandAll]
    simp
  | s :: rest =>
    rw [fillScenarioErrors, expandAll]
    rw [fillScn_some scnId (fillScenarioStep scnId em s) rest]
    rw [fillScnStep_some scnId em s]
    rw [(fillScnStep_frame scnId em s).1]
    constructor
    · rintro (h | ⟨u, hu, hh⟩)
      · rcases h with h | ⟨u, hu, hh⟩
        · exact Or.inl h
        · exact Or.inr ⟨u, List.mem_append_left _ hu, hh⟩
      · exact Or.inr ⟨u, List.mem_append_right _ hu, hh⟩
    · rintro (h | ⟨u, hu, hh⟩)
      · exact Or.inl (Or.inl h)
      · rcases List.mem_append.1 hu with hu | hu
        · exact Or.inl (Or.inr ⟨u, hu, hh⟩)
        · exact Or.inr ⟨u, hu, hh⟩

theorem fillScnStep_some (scnId : Nat) (em : ValidationErrMaps) (s : Step) :
    (lookupN (fillScenarioStep scnId em s).ScenarioErrs scnId).isSome = true ↔
      (lookupN em.ScenarioErrs scnId).isSome = true ∨
      ∃ u ∈ expandStep s, (lookupN em.StepErrs u.Id).isSome = true := by
  match s with
  | Step.mk i v a ic cs p =>
    rw [fillScenarioStep, expandStep]
    by_cases hic : ic
    · rw [if_pos hic, if_pos hic]
      cases hl : lookupN (fillScenarioErrors scnId em cs).StepErrs i with
      | none =>
        rw [fillScn_some scnId em cs]
        rw [(fillScn_frame scnId em cs).1] at hl
        constructor
        · rintro (h | ⟨u, hu, hh⟩)
          · exact Or.inl h
          · exact Or.inr ⟨u, List.mem_append_left _ hu, hh⟩
        · rintro (h | ⟨u, hu, hh⟩)
          · exact Or.inl h
          · rcases List.mem_append.1 hu with hu | hu
            · exact Or.inr ⟨u, hu, hh⟩
            · simp only [List.mem_singleton] at hu
              subst hu
              simp only [Step.Id] at hh
              rw [hl] at hh
              exact absurd hh (by simp)
      | some err =>
        dsimp only
        rw [lookupN_appendEntry_self]
        rw [(fillScn_frame scnId em cs).1] at hl
        simp only [Option.isSome_some, true_iff]
        refine Or.inr ⟨Step.mk i v a ic cs p, List.mem_append_right _ (List.mem_singleton_self _), ?_⟩
        simp only [Step.Id]
        rw [hl]
        rfl
    · rw [if_neg hic, if_neg hic]
      cases hl : lookupN em.StepErrs i with
      | none =>
        constructor
        · intro h
          exact Or.inl h
        · rintro (h | ⟨u, hu, hh⟩)
          · exact h
          · simp only [List.nil_append, List.mem_singleton] at hu
            subst hu
            simp only [Step.Id] at hh
            rw [hl] at hh
            exact absurd hh (by simp)
      | some err =>
        dsimp only
        rw [lookupN_appendEntry_self]
        simp only [Option.isSome_some, true_iff]
        refine Or.inr ⟨Step.mk i v a ic cs p, ?_, ?_⟩
        · simp
        · simp only [Step.Id]
          rw [hl]
          rfl
end
mutual
theorem fillScn_ne (scnId : Nat) (em : ValidationErrMaps) (l : List Step)
    (hne : ∀ l0, lookupN em.ScenarioErrs scnId = some l0 → l0 ≠ []) :
    ∀ l0, lookupN (fillScenarioErrors scnId em l).ScenarioErrs scnId = some l0 →
      l0 ≠ [] := by
  match l with
  | [] => exact hne
  | s :: rest =>
    rw [fillScenarioErrors]
    exact fillScn_ne scnId (fillScenarioStep scnId em s) rest
      (fillScnStep_ne scnId em s hne)

theorem fillScnStep_ne (scnId : Nat) (em : ValidationErrMaps) (s : Step)
    (hne : ∀ l0, lookupN em.ScenarioErrs scnId = some l0 → l0 ≠ []) :
    ∀ l0, lookupN (fillScenarioStep scnId em s).ScenarioErrs scnId = some l0 →
      l0 ≠ [] := by
  match s with
  | Step.mk i v a ic cs p =>
    rw [fillScenarioStep]
    by_cases hic : ic
    · rw [if_pos hic]
      have hrec := fillScn_ne scnId em cs hne
      cases hl : lookupN (fillScenarioErrors scnId em cs).StepErrs i with
      | none => exact hrec
      | some err =>
        intro l0 hl0
        dsimp only at hl0
        rw [lookupN_appendEntry_self] at hl0
        cases hl0
        simp
    · rw [if_neg hic]
      cases hl : lookupN em.StepErrs i with
      | none => exact hne
      | some err =>
        intro l0 hl0
        dsimp only at hl0
        rw [lookupN_appendEntry_self] at hl0
        cases hl0
        simp
end



theorem scnCountFold_eq (spec : Specification) (em : ValidationErrMaps) :
    scnCountFold spec em = scnCountFoldAux spec.Scenarios em 0 := rfl

theorem scnCountFoldAux_cons (scn : Scenario) (scns : List Scenario)
    (em : ValidationErrMaps) (k : Nat) :
    scnCountFoldAux (scn :: scns) em k =
      scnCountFoldAux scns (fillScenarioErrors scn.Id em scn.Steps)
        (if (lookupN (fillScenarioErrors scn.Id em scn.Steps).ScenarioErrs
              scn.Id).isSome then k + 1 else k) := by
  rw [scnCountFoldAux, scnCountFoldAux, List.foldl_cons]
  by_cases h : (lookupN (fillScenarioErrors scn.Id em scn.Steps).ScenarioErrs
      scn.Id).isSome = true
  · simp only [h, if_true]
  · simp only [eq_false_intro h, if_false]

theorem scnCountFoldAux_frame (scns : List Scenario) (em : ValidationErrMaps)
    (k : Nat) :
    (scnCountFoldAux scns em k).1.StepErrs = em.StepErrs ∧
    (scnCountFoldAux scns em k).1.SpecErrs = em.SpecErrs ∧
    (∀ j, (∀ scn ∈ scns, j ≠ scn.Id) →
      lookupN (scnCountFoldAux scns em k).1.ScenarioErrs j =
        lookupN em.ScenarioErrs j) := by
  induction scns generalizing em k with
  | nil => exact ⟨rfl, rfl, fun j hj => rfl⟩
  | cons scn rest ih =>
    rw [scnCountFoldAux_cons]
    obtain ⟨h1, h2, h3⟩ := fillScn_frame scn.Id em scn.Steps
    obtain ⟨g1, g2, g3⟩ := ih (fillScenarioErrors scn.Id em scn.Steps) _
    refine ⟨g1.trans h1, g2.trans h2, fun j hj => ?_⟩
    have hj1 : j ≠ scn.Id := hj scn (List.mem_cons_self _ _)
    refine (g3 j (fun s hs => hj s (List.mem_cons_of_mem _ hs))).trans (h3 j hj1)
/-- The generalized propagation loop over an arbitrary scenario list. -/

theorem propagateErr_eq (sp : Specification) (err : StepValidationError)
    (em : ValidationErrMaps) :
    propagateErr sp err em = propagateErrAux sp.Scenarios err em := rfl

theorem propagateErrAux_frame (scns : List Scenario) (err : StepValidationError)
    (em : ValidationErrMaps) :
    (propagateErrAux scns err em).StepErrs = em.StepErrs ∧
    (propagateErrAux scns err em).SpecErrs = em.SpecErrs := by
  induction scns generalizing em with
  | nil => exact ⟨rfl, rfl⟩
  | cons scn rest ih =>
    rw [propagateErrAux, List.foldl_cons]
    cases hl : lookupN em.ScenarioErrs scn.Id with
    | some l0 =>
      have := ih em
      rw [propagateErrAux] at this
      simpa using this
    | none =>
      have := ih { em with ScenarioErrs := appendEntry em.ScenarioErrs scn.Id [err] }
      rw [propagateErrAux] at this
      simpa using this

theorem propagateErrAux_mem (scns : List Scenario) (err : StepValidationError)
    (em : ValidationErrMaps) (k : Nat) (err2 : StepValidationError)
    (h : ∃ l0, lookupN em.ScenarioErrs k = some l0 ∧ err2 ∈ l0) :
    ∃ l1, lookupN (propagateErrAux scns err em).ScenarioErrs k = some l1 ∧ err2 ∈ l1 := by
  induction scns generalizing em with
  | nil => exact h
  | cons scn rest ih =>
    rw [propagateErrAux, List.foldl_cons]
    cases hl : lookupN em.ScenarioErrs scn.Id with
    | some l0 =>
      have hres := ih em h
      rw [propagateErrAux] at hres
      simpa using hres
    | none =>
      obtain ⟨l0, hk, hmem⟩ := h
      have hkk : k ≠ scn.Id := by
        intro he
        rw [he, hl] at hk
        exact Option.noConfusion hk
      have h2 : ∃ l0, lookupN (appendEntry em.ScenarioErrs scn.Id [err]) k = some l0 ∧
          err2 ∈ l0 := by
        refine ⟨l0, ?_, hmem⟩
        rw [lookupN_appendEntry_ne _ _ hkk]
        exact hk
      have hres := ih { em with ScenarioErrs := appendEntry em.ScenarioErrs scn.Id [err] } h2
      rw [propagateErrAux] at hres
      simpa using hres

theorem propagateErrAux_P (scns : List Scenario) (err : StepValidationError)
    (em : ValidationErrMaps) (k : Nat)
    (h : ∀ l0, lookupN em.ScenarioErrs k = some l0 → err ∈ l0) :
    ∀ l1, lookupN (propagateErrAux scns err em).ScenarioErrs k = some l1 → err ∈ l1 := by
  induction scns generalizing em with
  | nil => exact h
  | cons scn rest ih =>
    rw [propagateErrAux, List.foldl_cons]
    cases hl : lookupN em.ScenarioErrs scn.Id with
    | some l0 =>
      have hres := ih em h
      rw [propagateErrAux] at hres
      simpa using hres
    | none =>
      have h2 : ∀ l0, lookupN (appendEntry em.ScenarioErrs scn.Id [err]) k = some l0 →
          err ∈ l0 := by
        intro l0 hk
        by_cases hkk : k = scn.Id
        · rw [hkk, lookupN_appendEntry_self, hl] at hk
          cases hk
          simp
        · rw [lookupN_appendEntry_ne _ _ hkk] at hk
          exact h l0 hk
      have hres := ih { em with ScenarioErrs := appendEntry em.ScenarioErrs scn.Id [err] } h2
      rw [propagateErrAux] at hres
      simpa using hres

theorem propagateErrAux_hit (scns : List Scenario) (err : StepValidationError)
    (em : ValidationErrMaps) (scn : Scenario) (hmem : scn ∈ scns)
    (h : ∀ l0, lookupN em.ScenarioErrs scn.Id = some l0 → err ∈ l0) :
    ∃ l1, lookupN (propagateErrAux scns err em).ScenarioErrs scn.Id = some l1 ∧
      err ∈ l1 := by
  induction scns generalizing em with
  | nil => simp at hmem
  | cons scn0 rest ih =>
    rw [propagateErrAux, List.foldl_cons]
    rcases List.mem_cons.1 hmem with he | hm
    · subst he
      cases hl : lookupN em.ScenarioErrs scn.Id with
      | some l0 =>
        have hres := propagateErrAux_mem rest err em scn.Id err ⟨l0, hl, h l0 hl⟩
        rw [propagateErrAux] at hres
        simpa using hres
      | none =>
        have h2 : ∃ l0, lookupN (appendEntry em.ScenarioErrs scn.Id [err]) scn.Id = some l0 ∧
            err ∈ l0 := by
          refine ⟨(lookupN em.ScenarioErrs scn.Id).getD [] ++ [err], ?_, by simp⟩
          rw [lookupN_appendEntry_self]
        have hres := propagateErrAux_mem rest err
          { em with ScenarioErrs := appendEntry em.ScenarioErrs scn.Id [err] } scn.Id err h2
        rw [propagateErrAux] at hres
        simpa using hres
    · cases hl : lookupN em.ScenarioErrs scn0.Id with
      | some l0 =>
        have hres := ih em hm h
        rw [propagateErrAux] at hres
        simpa using hres
      | none =>
        have h2 : ∀ l0, lookupN (appendEntry em.ScenarioErrs scn0.Id [err]) scn.Id = some l0 →
            err ∈ l0 := by
          intro l0 hk
          by_cases hkk : scn.Id = scn0.Id
          · rw [hkk, lookupN_appendEntry_self, hl] at hk
            cases hk
            simp
          · rw [lookupN_appendEntry_ne _ _ hkk] at hk
            exact h l0 hk
        have hres := ih { em with ScenarioErrs := appendEntry em.ScenarioErrs scn0.Id [err] } hm h2
        rw [propagateErrAux] at hres
        simpa using hres
theorem expandAll_cons (s : Step) (rest : List Step) :
    expandAll (s :: rest) = expandStep s ++ expandAll rest := rfl

theorem self_mem_expandStep (i : Nat) (v : String) (a : Nat) (ic : Bool)
    (cs : List Step) (p : Option String) :
    Step.mk i v a ic cs p ∈ expandStep (Step.mk i v a ic cs p) := by
  rw [expandStep]
  exact List.mem_append_right _ (List.mem_singleton_self _)

theorem mem_expandStep_of_body {u : Step} {cs : List Step} (hu : u ∈ expandAll cs)
    (i : Nat) (v : String) (a : Nat) (p : Option String) :
    u ∈ expandStep (Step.mk i v a true cs p) := by
  rw [expandStep, if_pos rfl]
  exact List.mem_append_left _ hu

mutual
theorem fillSpec_stepErrs (sp : Specification) (em : ValidationErrMaps)
    (l : List Step) : (fillSpecErrors sp em l).StepErrs = em.StepErrs := by
  match l with
  | [] => rfl
  | s :: rest =>
    rw [fillSpecErrors]
    exact (fillSpec_stepErrs sp (fillSpecStep sp em s) rest).trans
      (fillSpecStep_stepErrs sp em s)

theorem fillSpecStep_stepErrs (sp : Specification) (em : ValidationErrMaps)
    (s : Step) : (fillSpecStep sp em s).StepErrs = em.StepErrs := by
  match s with
  | Step.mk i v a ic cs p =>
    rw [fillSpecStep]
    by_cases hic : ic
    · rw [if_pos hic]
      cases hl : lookupN (fillSpecErrors sp em cs).StepErrs i with
      | none => exact fillSpec_stepErrs sp em cs
      | some err =>
        dsimp only
        rw [propagateErr_eq]
        exact ((propagateErrAux_frame sp.Scenarios err _).1).trans
          (fillSpec_stepErrs sp em cs)
    · rw [if_neg hic]
      cases hl : lookupN em.StepErrs i with
      | none => rfl
      | some err =>
        dsimp only
        rw [propagateErr_eq]
        exact (propagateErrAux_frame sp.Scenarios err _).1
end

mutual
theorem fillSpec_mem (sp : Specification) (em : ValidationErrMaps) (l : List Step) :
    (∀ k err2, (∃ l0, lookupN em.SpecErrs k = some l0 ∧ err2 ∈ l0) →
      ∃ l1, lookupN (fillSpecErrors sp em l).SpecErrs k = some l1 ∧ err2 ∈ l1) ∧
    (∀ k err2, (∃ l0, lookupN em.ScenarioErrs k = some l0 ∧ err2 ∈ l0) →
      ∃ l1, lookupN (fillSpecErrors sp em l).ScenarioErrs k = some l1 ∧ err2 ∈ l1) := by
  match l with
  | [] => exact ⟨fun k e h => h, fun k e h => h⟩
  | s :: rest =>
    rw [fillSpecErrors]
    obtain ⟨h1, h2⟩ := fillSpecStep_mem sp em s
    obtain ⟨g1, g2⟩ := fillSpec_mem sp (fillSpecStep sp em s) rest
    exact ⟨fun k e h => g1 k e (h1 k e h), fun k e h => g2 k e (h2 k e h)⟩

theorem fillSpecStep_mem (sp : Specification) (em : ValidationErrMaps) (s : Step) :
    (∀ k err2, (∃ l0, lookupN em.SpecErrs k = some l0 ∧ err2 ∈ l0) →
      ∃ l1, lookupN (fillSpecStep sp em s).SpecErrs k = some l1 ∧ err2 ∈ l1) ∧
    (∀ k err2, (∃ l0, lookupN em.ScenarioErrs k = some l0 ∧ err2 ∈ l0) →
      ∃ l1, lookupN (fillSpecStep sp em s).ScenarioErrs k = some l1 ∧ err2 ∈ l1) := by
  match s with
  | Step.mk i v a ic cs p =>
    rw [fillSpecStep]
    by_cases hic : ic
    · rw [if_pos hic]
      obtain ⟨h1, h2⟩ := fillSpec_mem sp em cs
      cases hl : lookupN (fillSpecErrors sp em cs).StepErrs i with
      | none => exact ⟨h1, h2⟩
      | some err =>
        dsimp only
        rw [propagateErr_eq]
        constructor
        · intro k err2 h
          obtain ⟨l0, hk, hmem⟩ := h1 k err2 h
          rw [(propagateErrAux_frame sp.Scenarios err _).2]
          dsimp only
          by_cases hkk : k = sp.Id
          · refine ⟨l0 ++ [err], ?_, List.mem_append_left _ hmem⟩
            rw [hkk] at hk ⊢
            rw [lookupN_appendEntry_self, hk]
            rfl
          · refine ⟨l0, ?_, hmem⟩
            rw [lookupN_appendEntry_ne _ _ hkk]
            exact hk
        · intro k err2 h
          exact propagateErrAux_mem sp.Scenarios err _ k err2 (h2 k err2 h)
    · rw [if_neg hic]
      cases hl : lookupN em.StepErrs i with
      | none => exact ⟨fun k e h => h, fun k e h => h⟩
      | some err =>
        dsimp only
        rw [propagateErr_eq]
        constructor
        · intro k err2 h
          obtain ⟨l0, hk, hmem⟩ := h
          rw [(propagateErrAux_frame sp.Scenarios err _).2]
          dsimp only
          by_cases hkk : k = sp.Id
          · refine ⟨l0 ++ [err], ?_, List.mem_append_left _ hmem⟩
            rw [hkk] at hk ⊢
            rw [lookupN_appendEntry_self, hk]
            rfl
          · refine ⟨l0, ?_, hmem⟩
            rw [lookupN_appendEntry_ne _ _ hkk]
            exact hk
        · intro k err2 h
          exact propagateErrAux_mem sp.Scenarios err _ k err2 h
end
mutual
theorem fillSpec_nohit (sp : Specification) (em : ValidationErrMaps) (l : List Step)
    (h : ∀ u ∈ expandAll l, lookupN em.StepErrs u.Id = none) :
    fillSpecErrors sp em l = em := by
  match l with
  | [] => rfl
  | s :: rest =>
    rw [fillSpecErrors]
    have hstep : fillSpecStep sp em s = em :=
      fillSpecStep_nohit sp em s
        (fun u hu => h u (by rw [expandAll_cons]; exact List.mem_append_left _ hu))
    rw [hstep]
    exact fillSpec_nohit sp em rest
      (fun u hu => h u (by rw [expandAll_cons]; exact List.mem_append_right _ hu))

theorem fillSpecStep_nohit (sp : Specification) (em : ValidationErrMaps) (s : Step)
    (h : ∀ u ∈ expandStep s, lookupN em.StepErrs u.Id = none) :
    fillSpecStep sp em s = em := by
  match s with
  | Step.mk i v a ic cs p =>
    rw [fillSpecStep]
    by_cases hic : ic
    · rw [if_pos hic]
      have hrec : fillSpecErrors sp em cs = em := by
        refine fillSpec_nohit sp em cs (fun u hu => h u ?_)
        subst hic
        exact mem_expandStep_of_body hu i v a p
      rw [hrec]
      have hl : lookupN em.StepErrs i = none := by
        have := h (Step.mk i v a ic cs p) (self_mem_expandStep i v a ic cs p)
        simpa [Step.Id] using this
      rw [hl]
    · rw [if_neg hic]
      have hl : lookupN em.StepErrs i = none := by
        have := h (Step.mk i v a ic cs p) (self_mem_expandStep i v a ic cs p)
        simpa [Step.Id] using this
      rw [hl]
end

mutual
theorem fillSpec_hit_spec (sp : Specification) (em : ValidationErrMaps)
    (l : List Step) (t : Step) (err : StepValidationError)
    (hmem : t ∈ expandAll l) (hhit : lookupN em.StepErrs t.Id = some err) :
    ∃ l1, lookupN (fillSpecErrors sp em l).SpecErrs sp.Id = some l1 ∧ err ∈ l1 := by
  match l with
  | [] => simp [expandAll] at hmem
  | s :: rest =>
    rw [fillSpecErrors]
    rw [expandAll_cons] at hmem
    rcases List.mem_append.1 hmem with hm | hm
    · have hres := fillSpecStep_hit_spec sp em s t err hm hhit
      exact (fillSpec_mem sp (fillSpecStep sp em s) rest).1 sp.Id err hres
    · refine fillSpec_hit_spec sp (fillSpecStep sp em s) rest t err hm ?_
      rw [fillSpecStep_stepErrs]
      exact hhit

theorem fillSpecStep_hit_spec (sp : Specification) (em : ValidationErrMaps)
    (s : Step) (t : Step) (err : StepValidationError)
    (hmem : t ∈ expandStep s) (hhit : lookupN em.StepErrs t.Id = some err) :
    ∃ l1, lookupN (fillSpecStep sp em s).SpecErrs sp.Id = some l1 ∧ err ∈ l1 := by
  match s with
  | Step.mk i v a ic cs p =>
    rw [fillSpecStep]
    rw [expandStep] at hmem
    by_cases hic : ic
    · rw [if_pos hic]
      rw [if_pos hic] at hmem
      rcases List.mem_append.1 hmem with hm | hm
      · have hrec := fillSpec_hit_spec sp em cs t err hm hhit
        cases hl : lookupN (fillSpecErrors sp em cs).StepErrs i with
        | none => exact hrec
        | some err0 =>
          dsimp only
          rw [propagateErr_eq]
          rw [(propagateErrAux_frame sp.Scenarios err0 _).2]
          dsimp only
          obtain ⟨l1, hk, hin⟩ := hrec
          refine ⟨l1 ++ [err0], ?_, List.mem_append_left _ hin⟩
          rw [lookupN_appendEntry_self, hk]
          rfl
      · simp only [List.mem_singleton] at hm
        rw [hm] at hhit
        simp only [Step.Id] at hhit
        have hl : lookupN (fillSpecErrors sp em cs).StepErrs i = some err := by
          rw [fillSpec_stepErrs]
          exact hhit
        rw [hl]
        dsimp only
        rw [propagateErr_eq]
        rw [(propagateErrAux_frame sp.Scenarios err _).2]
        dsimp only
        refine ⟨(lookupN (fillSpecErrors sp em cs).SpecErrs sp.Id).getD [] ++ [err], ?_, by simp⟩
        rw [lookupN_appendEntry_self]
    · rw [if_neg hic]
      rw [if_neg hic] at hmem
      simp only [List.nil_append, List.mem_singleton] at hmem
      rw [hmem] at hhit
      simp only [Step.Id] at hhit
      rw [hhit]
      dsimp only
      rw [propagateErr_eq]
      rw [(propagateErrAux_frame sp.Scenarios err _).2]
      dsimp only
      refine ⟨(lookupN em.SpecErrs sp.Id).getD [] ++ [err], ?_, by simp⟩
      rw [lookupN_appendEntry_self]
end
mutual
theorem fillSpec_P (sp : Specification) (em : ValidationErrMaps) (l : List Step)
    (err : StepValidationError) (k : Nat)
    (huniq : ∀ u ∈ expandAll l, ∀ e, lookupN em.StepErrs u.Id = some e → e = err)
    (h : ∀ l0, lookupN em.ScenarioErrs k = some l0 → err ∈ l0) :
    ∀ l1, lookupN (fillSpecErrors sp em l).ScenarioErrs k = some l1 → err ∈ l1 := by
  match l with
  | [] => exact h
  | s :: rest =>
    rw [fillSpecErrors]
    have hstep := fillSpecStep_P sp em s err k
      (fun u hu => huniq u (by rw [expandAll_cons]; exact List.mem_append_left _ hu))
      h
    refine fillSpec_P sp (fillSpecStep sp em s) rest err k ?_ hstep
    intro u hu e he
    rw [fillSpecStep_stepErrs] at he
    exact huniq u (by rw [expandAll_cons]; exact List.mem_append_right _ hu) e he

theorem fillSpecStep_P (sp : Specification) (em : ValidationErrMaps) (s : Step)
    (err : StepValidationError) (k : Nat)
    (huniq : ∀ u ∈ expandStep s, ∀ e, lookupN em.StepErrs u.Id = some e → e = err)
    (h : ∀ l0, lookupN em.ScenarioErrs k = some l0 → err ∈ l0) :
    ∀ l1, lookupN (fillSpecStep sp em s).ScenarioErrs k = some l1 → err ∈ l1 := by
  match s with
  | Step.mk i v a ic cs p =>
    rw [fillSpecStep]
    by_cases hic : ic
    · rw [if_pos hic]
      have hrec := fillSpec_P sp em cs err k
        (fun u hu => huniq u (by subst hic; exact mem_expandStep_of_body hu i v a p))
        h
      cases hl : lookupN (fillSpecErrors sp em cs).StepErrs i with
      | none => exact hrec
      | some err0 =>
        have he0 : err0 = err := by
          refine huniq (Step.mk i v a ic cs p) (self_mem_expandStep i v a ic cs p) err0 ?_
          rw [fillSpec_stepErrs] at hl
          simpa [Step.Id] using hl
        subst he0
        dsimp only
        rw [propagateErr_eq]
        exact propagateErrAux_P sp.Scenarios err0 _ k hrec
    · rw [if_neg hic]
      cases hl : lookupN em.StepErrs i with
      | none => exact h
      | some err0 =>
        have he0 : err0 = err := by
          refine huniq (Step.mk i v a ic cs p) (self_mem_expandStep i v a ic cs p) err0 ?_
          simpa [Step.Id] using hl
        subst he0
        dsimp only
        rw [propagateErr_eq]
        exact propagateErrAux_P sp.Scenarios err0 _ k h
end

mutual
theorem fillSpec_hit_scn (sp : Specification) (em : ValidationErrMaps)
    (l : List Step) (t : Step) (err : StepValidationError) (scn : Scenario)
    (huniq : ∀ u ∈ expandAll l, ∀ e, lookupN em.StepErrs u.Id = some e → e = err)
    (hmem : t ∈ expandAll l) (hhit : lookupN em.StepErrs t.Id = some err)
    (hscn : scn ∈ sp.Scenarios)
    (hP : ∀ l0, lookupN em.ScenarioErrs scn.Id = some l0 → err ∈ l0) :
    ∃ l1, lookupN (fillSpecErrors sp em l).ScenarioErrs scn.Id = some l1 ∧
      err ∈ l1 := by
  match l with
  | [] => simp [expandAll] at hmem
  | s :: rest =>
    rw [fillSpecErrors]
    rw [expandAll_cons] at hmem
    rcases List.mem_append.1 hmem with hm | hm
    · have hres := fillSpecStep_hit_scn sp em s t err scn
        (fun u hu => huniq u (by rw [expandAll_cons]; exact List.mem_append_left _ hu))
        hm hhit hscn hP
      exact (fillSpec_mem sp (fillSpecStep sp em s) rest).2 scn.Id err hres
    · have hP2 := fillSpecStep_P sp em s err scn.Id
        (fun u hu => huniq u (by rw [expandAll_cons]; exact List.mem_append_left _ hu))
        hP
      refine fillSpec_hit_scn sp (fillSpecStep sp em s) rest t err scn ?_ hm ?_ hscn hP2
      · intro u hu e he
        rw [fillSpecStep_stepErrs] at he
        exact huniq u (by rw [expandAll_cons]; exact List.mem_append_right _ hu) e he
      · rw [fillSpecStep_stepErrs]
        exact hhit

theorem fillSpecStep_hit_scn (sp : Specification) (em : ValidationErrMaps)
    (s : Step) (t : Step) (err : StepValidationError) (scn : Scenario)
    (huniq : ∀ u ∈ expandStep s, ∀ e, lookupN em.StepErrs u.Id = some e → e = err)
    (hmem : t ∈ expandStep s) (hhit : lookupN em.StepErrs t.Id = some err)
    (hscn : scn ∈ sp.Scenarios)
    (hP : ∀ l0, lookupN em.ScenarioErrs scn.Id = some l0 → err ∈ l0) :
    ∃ l1, lookupN (fillSpecStep sp em s).ScenarioErrs scn.Id = some l1 ∧
      err ∈ l1 := by
  match s with
  | Step.mk i v a ic cs p =>
    rw [fillSpecStep]
    rw [expandStep] at hmem
    by_cases hic : ic
    · rw [if_pos hic]
      rw [if_pos hic] at hmem
      have huniqcs : ∀ u ∈ expandAll cs, ∀ e,
          lookupN em.StepErrs u.Id = some e → e = err :=
        fun u hu => huniq u (by subst hic; exact mem_expandStep_of_body hu i v a p)
      rcases List.mem_append.1 hmem with hm | hm
      · have hrec := fillSpec_hit_scn sp em cs t err scn huniqcs hm hhit hscn hP
        cases hl : lookupN (fillSpecErrors sp em cs).StepErrs i with
        | none => exact hrec
        | some err0 =>
          have he0 : err0 = err := by
            refine huniq (Step.mk i v a ic cs p) (self_mem_expandStep i v a ic cs p)
              err0 ?_
            rw [fillSpec_stepErrs] at hl
            simpa [Step.Id] using hl
          subst he0
          dsimp only
          rw [propagateErr_eq]
          exact propagateErrAux_mem sp.Scenarios err0 _ scn.Id err0 hrec
      · simp only [List.mem_singleton] at hm
        rw [hm] at hhit
        simp only [Step.Id] at hhit
        have hl : lookupN (fillSpecErrors sp em cs).StepErrs i = some err := by
          rw [fillSpec_stepErrs]
          exact hhit
        rw [hl]
        dsimp only
        rw [propagateErr_eq]
        have hPrec := fillSpec_P sp em cs err scn.Id huniqcs hP
        exact propagateErrAux_hit sp.Scenarios err _ scn hscn hPrec
    · rw [if_neg hic]
      rw [if_neg hic] at hmem
      simp only [List.nil_append, List.mem_singleton] at hmem
      rw [hmem] at hhit
      simp only [Step.Id] at hhit
      rw [hhit]
      dsimp only
      rw [propagateErr_eq]
      exact propagateErrAux_hit sp.Scenarios err _ scn hscn hP
end
theorem fillScn_ne_global (scnId : Nat) (em : ValidationErrMaps) (l : List Step)
    (hne : ∀ k l0, lookupN em.ScenarioErrs k = some l0 → l0 ≠ []) :
    ∀ k l0, lookupN (fillScenarioErrors scnId em l).ScenarioErrs k = some l0 →
      l0 ≠ [] := by
  intro k l0 h
  by_cases hk : k = scnId
  · subst hk
    exact fillScn_ne k em l (hne k) l0 h
  · rw [(fillScn_frame scnId em l).2.2 k hk] at h
    exact hne k l0 h

theorem scnCountFoldAux_ne (scns : List Scenario) (em : ValidationErrMaps) (k : Nat)
    (hne : ∀ j l0, lookupN em.ScenarioErrs j = some l0 → l0 ≠ []) :
    ∀ j l0, lookupN (scnCountFoldAux scns em k).1.ScenarioErrs j = some l0 →
      l0 ≠ [] := by
  induction scns generalizing em k with
  | nil => exact hne
  | cons scn rest ih =>
    rw [scnCountFoldAux_cons]
    exact ih _ _ (fillScn_ne_global scn.Id em scn.Steps hne)


theorem scnFails_iff (se : List (Nat × StepValidationError)) (scn : Scenario) :
    scnFails se scn = true ↔
      ∃ u ∈ expandAll scn.Steps, (lookupN se u.Id).isSome = true := by
  simp [scnFails, List.any_eq_true]

theorem scnCountFoldAux_entry (scns : List Scenario) (em : ValidationErrMaps)
    (k : Nat) (hnd : (scns.map Scenario.Id).Nodup)
    (hinit : ∀ scn ∈ scns, lookupN em.ScenarioErrs scn.Id = none) :
    (∀ scn ∈ scns,
      ((lookupN (scnCountFoldAux scns em k).1.ScenarioErrs scn.Id).isSome = true ↔
        ∃ u ∈ expandAll scn.Steps, (lookupN em.StepErrs u.Id).isSome = true)) ∧
    (scnCountFoldAux scns em k).2 = k + scns.countP (scnFails em.StepErrs) := by
  induction scns generalizing em k with
  | nil =>
    constructor
    · intro scn h
      simp at h
    · simp [scnCountFoldAux]
  | cons scn0 rest ih =>
    obtain ⟨hf1, hf2, hf3⟩ := fillScn_frame scn0.Id em scn0.Steps
    have hnd0 : scn0.Id ∉ rest.map Scenario.Id := (List.nodup_cons.1 hnd).1
    have hnd' : (rest.map Scenario.Id).Nodup := (List.nodup_cons.1 hnd).2
    have hsome : (lookupN (fillScenarioErrors scn0.Id em scn0.Steps).ScenarioErrs
        scn0.Id).isSome = true ↔
        ∃ u ∈ expandAll scn0.Steps, (lookupN em.StepErrs u.Id).isSome = true := by
      rw [fillScn_some]
      rw [hinit scn0 (List.mem_cons_self _ _)]
      simp
    have hinit' : ∀ scn ∈ rest,
        lookupN (fillScenarioErrors scn0.Id em scn0.Steps).ScenarioErrs scn.Id
          = none := by
      intro scn hm
      have hne : scn.Id ≠ scn0.Id := by
        intro he
        exact hnd0 (he ▸ List.mem_map_of_mem Scenario.Id hm)
      rw [hf3 scn.Id hne]
      exact hinit scn (List.mem_cons_of_mem _ hm)
    obtain ⟨ihe, ihc⟩ := ih (fillScenarioErrors scn0.Id em scn0.Steps)
      (if (lookupN (fillScenarioErrors scn0.Id em scn0.Steps).ScenarioErrs
          scn0.Id).isSome then k + 1 else k) hnd' hinit'
    constructor
    · intro scn hm
      rw [scnCountFoldAux_cons]
      rcases List.mem_cons.1 hm with he | hm2
      · subst he
        have hfr : ∀ j, (∀ s ∈ rest, j ≠ s.Id) →
            lookupN (scnCountFoldAux rest (fillScenarioErrors scn.Id em scn.Steps)
              (if (lookupN (fillScenarioErrors scn.Id em scn.Steps).ScenarioErrs
                  scn.Id).isSome then k + 1 else k)).1.ScenarioErrs j =
              lookupN (fillScenarioErrors scn.Id em scn.Steps).ScenarioErrs j :=
          (scnCountFoldAux_frame rest _ _).2.2
        rw [hfr scn.Id (fun s hs he => hnd0 (he ▸ List.mem_map_of_mem Scenario.Id hs))]
        exact hsome
      · rw [ihe scn hm2, hf1]
    · rw [scnCountFoldAux_cons, ihc, hf1]
      rw [List.countP_cons]
      by_cases hP : ∃ u ∈ expandAll scn0.Steps, (lookupN em.StepErrs u.Id).isSome = true
      · have hb : (lookupN (fillScenarioErrors scn0.Id em scn0.Steps).ScenarioErrs
            scn0.Id).isSome = true := hsome.2 hP
        rw [hb]
        rw [if_pos ((scnFails_iff em.StepErrs scn0).2 hP)]
        simp only [if_true]
        omega
      · have hb : (lookupN (fillScenarioErrors scn0.Id em scn0.Steps).ScenarioErrs
            scn0.Id).isSome = false := by
          cases hx : (lookupN (fillScenarioErrors scn0.Id em scn0.Steps).ScenarioErrs
              scn0.Id).isSome with
          | false => rfl
          | true => exact absurd (hsome.1 hx) hP
        rw [hb]
        have hsf : scnFails em.StepErrs scn0 = false := by
          cases hx : scnFails em.StepErrs scn0 with
          | false => rfl
          | true => exact absurd ((scnFails_iff em.StepErrs scn0).1 hx) hP
        rw [hsf]
        simp only [Bool.false_eq_true, if_false]
        omega
theorem getErrMapOne_eq (em : ValidationErrMaps) (sp : Specification)
    (errs : List StepValidationError) :
    getErrMapOne em (sp, errs) =
      fillSpecErrors sp
        (match sp.Scenarios.head? with
         | some scn0 =>
           if (scnCountFold sp (buildStepErrs em errs)).2 = sp.Scenarios.length then
             { (scnCountFold sp (buildStepErrs em errs)).1 with
               SpecErrs := appendEntry
                 (scnCountFold sp (buildStepErrs em errs)).1.SpecErrs sp.Id
                 ((lookupN (scnCountFold sp (buildStepErrs em errs)).1.ScenarioErrs
                   scn0.Id).getD []) }
           else (scnCountFold sp (buildStepErrs em errs)).1
         | none => (scnCountFold sp (buildStepErrs em errs)).1)
        (sp.Contexts ++ sp.TearDownSteps) := rfl

theorem getErrMap_single (sp : Specification) (errs : List StepValidationError) :
    getErrMap [(sp, errs)] = getErrMapOne NewValidationErrMaps (sp, errs) := rfl

theorem isSome_false_eq_none {β : Type} {o : Option β} (h : o.isSome = false) :
    o = none := by
  cases o with
  | none => rfl
  | some x => simp at h

theorem em0_step_iff (errs : List StepValidationError) (u : Step) :
    (lookupN (buildStepErrs NewValidationErrMaps errs).StepErrs u.Id).isSome = true ↔
      failsStep errs u := by
  rw [buildStepErrs_lookup]
  rw [failsStep]
  constructor
  · rintro (h | h)
    · exact h
    · exact absurd h (by simp [NewValidationErrMaps, lookupN])
  · exact Or.inl

theorem em0_fails_iff (errs : List StepValidationError) (l : List Step) :
    (∃ u ∈ expandAll l,
      (lookupN (buildStepErrs NewValidationErrMaps errs).StepErrs u.Id).isSome = true)
      ↔ failsAny errs l := by
  rw [failsAny]
  constructor
  · rintro ⟨u, hu, hh⟩
    exact ⟨u, hu, (em0_step_iff errs u).1 hh⟩
  · rintro ⟨u, hu, hh⟩
    exact ⟨u, hu, (em0_step_iff errs u).2 hh⟩

theorem em0_nohit (errs : List StepValidationError) (l : List Step)
    (h : ¬ failsAny errs l) :
    ∀ u ∈ expandAll l,
      lookupN (buildStepErrs NewValidationErrMaps errs).StepErrs u.Id = none := by
  intro u hu
  refine isSome_false_eq_none ?_
  cases hx : (lookupN (buildStepErrs NewValidationErrMaps errs).StepErrs u.Id).isSome with
  | false => rfl
  | true =>
    exact absurd ((em0_fails_iff errs l).1 ⟨u, hu, hx⟩) h
/-- C3: in `getErrMap`'s output for one spec, the Spec-level entry is
non-empty exactly when a context/teardown step (after concept expansion)
failed or the spec has scenarios and every one of them acquired an error;
when all scenarios fail and no context/teardown step does, the Spec-level
list is exactly the first scenario's list. -/
theorem claim_C3_total_failure_rollup (sp : Specification)
    (errs : List StepValidationError)
    (hnd : (sp.Scenarios.map Scenario.Id).Nodup) :
    ((∃ l, lookupN (getErrMap [(sp, errs)]).SpecErrs sp.Id = some l ∧ l ≠ []) ↔
      (failsAny errs (sp.Contexts ++ sp.TearDownSteps) ∨
       (sp.Scenarios ≠ [] ∧ ∀ scn ∈ sp.Scenarios, failsAny errs scn.Steps))) ∧
    (¬ failsAny errs (sp.Contexts ++ sp.TearDownSteps) →
      ∀ scn0, sp.Scenarios.head? = some scn0 →
      (∀ scn ∈ sp.Scenarios, failsAny errs scn.Steps) →
      lookupN (getErrMap [(sp, errs)]).SpecErrs sp.Id =
        lookupN (getErrMap [(sp, errs)]).ScenarioErrs scn0.Id ∧
      lookupN (getErrMap [(sp, errs)]).SpecErrs sp.Id ≠ none) := by
  have hinit : ∀ scn ∈ sp.Scenarios,
      lookupN (buildStepErrs NewValidationErrMaps errs).ScenarioErrs scn.Id = none := by
    intro scn hm
    rw [(buildStepErrs_fields NewValidationErrMaps errs).2]
    rfl
  obtain ⟨hentry, hcount⟩ := scnCountFoldAux_entry sp.Scenarios
    (buildStepErrs NewValidationErrMaps errs) 0 hnd hinit
  have hfoldStep : (scnCountFoldAux sp.Scenarios
      (buildStepErrs NewValidationErrMaps errs) 0).1.StepErrs
      = (buildStepErrs NewValidationErrMaps errs).StepErrs :=
    (scnCountFoldAux_frame _ _ _).1
  have hfoldSpec : (scnCountFoldAux sp.Scenarios
      (buildStepErrs NewValidationErrMaps errs) 0).1.SpecErrs = [] := by
    rw [(scnCountFoldAux_frame _ _ _).2.1,
      (buildStepErrs_fields NewValidationErrMaps errs).1]
    rfl
  have hfoldne : ∀ j l0, lookupN (scnCountFoldAux sp.Scenarios
      (buildStepErrs NewValidationErrMaps errs) 0).1.ScenarioErrs j = some l0 →
      l0 ≠ [] := by
    refine scnCountFoldAux_ne _ _ _ ?_
    intro j l0 h
    rw [(buildStepErrs_fields NewValidationErrMaps errs).2] at h
    simp [NewValidationErrMaps, lookupN] at h
  have hmain : getErrMap [(sp, errs)] =
      fillSpecErrors sp
        (match sp.Scenarios.head? with
         | some scn0 =>
           if (scnCountFold sp (buildStepErrs NewValidationErrMaps errs)).2
               = sp.Scenarios.length then
             { (scnCountFold sp (buildStepErrs NewValidationErrMaps errs)).1 with
               SpecErrs := appendEntry
                 (scnCountFold sp (buildStepErrs NewValidationErrMaps errs)).1.SpecErrs
                 sp.Id
                 ((lookupN (scnCountFold sp
                   (buildStepErrs NewValidationErrMaps errs)).1.ScenarioErrs
                   scn0.Id).getD []) }
           else (scnCountFold sp (buildStepErrs NewValidationErrMaps errs)).1
         | none => (scnCountFold sp (buildStepErrs NewValidationErrMaps errs)).1)
        (sp.Contexts ++ sp.TearDownSteps) := by
    rw [getErrMap_single, getErrMapOne_eq]
  rw [scnCountFold_eq] at hmain
  have hAllIff : ((scnCountFoldAux sp.Scenarios
      (buildStepErrs NewValidationErrMaps errs) 0).2 = sp.Scenarios.length) ↔
      ∀ scn ∈ sp.Scenarios, failsAny errs scn.Steps := by
    rw [hcount, Nat.zero_add, List.countP_eq_length]
    constructor
    · intro h scn hm
      exact (em0_fails_iff errs scn.Steps).1 ((scnFails_iff _ scn).1 (h scn hm))
    · intro h scn hm
      exact (scnFails_iff _ scn).2 ((em0_fails_iff errs scn.Steps).2 (h scn hm))
  cases hh : sp.Scenarios.head? with
  | none =>
    have hnil : sp.Scenarios = [] := by
      cases hsc : sp.Scenarios with
      | nil => rfl
      | cons a t =>
        rw [hsc] at hh
        simp at hh
    rw [hh] at hmain
    dsimp only at hmain
    constructor
    · constructor
      · rintro ⟨l, hl, hlne⟩
        by_cases hctx : failsAny errs (sp.Contexts ++ sp.TearDownSteps)
        · exact Or.inl hctx
        · exfalso
          have hnofill : fillSpecErrors sp (scnCountFoldAux sp.Scenarios
              (buildStepErrs NewValidationErrMaps errs) 0).1
              (sp.Contexts ++ sp.TearDownSteps) =
              (scnCountFoldAux sp.Scenarios
                (buildStepErrs NewValidationErrMaps errs) 0).1 := by
            refine fillSpec_nohit sp _ _ ?_
            intro u hu
            rw [hfoldStep]
            exact em0_nohit errs _ hctx u hu
          rw [hmain, hnofill, hfoldSpec] at hl
          simp [lookupN] at hl
      · rintro (hctx | ⟨hne, _⟩)
        · obtain ⟨u, hu, e, he, hid⟩ := hctx
          have hhit : ∃ err, lookupN (scnCountFoldAux sp.Scenarios
              (buildStepErrs NewValidationErrMaps errs) 0).1.StepErrs u.Id
                = some err := by
            rw [hfoldStep]
            have hs := (em0_step_iff errs u).2 ⟨e, he, hid⟩
            cases hx : lookupN (buildStepErrs NewValidationErrMaps errs).StepErrs u.Id with
            | none => rw [hx] at hs; exact absurd hs (by simp)
            | some err => exact ⟨err, rfl⟩
          obtain ⟨err, herr⟩ := hhit
          obtain ⟨l1, hk, hin⟩ := fillSpec_hit_spec sp _
            (sp.Contexts ++ sp.TearDownSteps) u err hu herr
          rw [← hmain] at hk
          exact ⟨l1, hk, List.ne_nil_of_mem hin⟩
        · exact absurd hnil hne
    · intro hnc scn0 hh2 hall
      exact Option.noConfusion hh2
  | some scn0 =>
    have hmem0 : scn0 ∈ sp.Scenarios := by
      cases hsc : sp.Scenarios with
      | nil =>
        rw [hsc] at hh
        simp at hh
      | cons a t =>
        rw [hsc] at hh
        simp only [List.head?_cons, Option.some.injEq] at hh
        rw [hh]
        exact List.mem_cons_self _ _
    have hne0 : sp.Scenarios ≠ [] := by
      intro h
      rw [h] at hh
      simp at hh
    rw [hh] at hmain
    dsimp only at hmain
    have hStepEq2 : ∀ em2 : ValidationErrMaps, em2.StepErrs =
        (buildStepErrs NewValidationErrMaps errs).StepErrs →
        (¬ failsAny errs (sp.Contexts ++ sp.TearDownSteps)) →
        fillSpecErrors sp em2 (sp.Contexts ++ sp.TearDownSteps) = em2 := by
      intro em2 hse hctx
      refine fillSpec_nohit sp _ _ ?_
      intro u hu
      rw [hse]
      exact em0_nohit errs _ hctx u hu
    constructor
    · constructor
      · rintro ⟨l, hl, hlne⟩
        by_cases hctx : failsAny errs (sp.Contexts ++ sp.TearDownSteps)
        · exact Or.inl hctx
        · by_cases hlen : (scnCountFoldAux sp.Scenarios
              (buildStepErrs NewValidationErrMaps errs) 0).2 = sp.Scenarios.length
          · exact Or.inr ⟨hne0, hAllIff.1 hlen⟩
          · exfalso
            rw [if_neg hlen] at hmain
            rw [hmain, hStepEq2 _ hfoldStep hctx, hfoldSpec] at hl
            simp [lookupN] at hl
      · rintro (hctx | ⟨_, hall⟩)
        · obtain ⟨u, hu, e, he, hid⟩ := hctx
          by_cases hlen : (scnCountFoldAux sp.Scenarios
              (buildStepErrs NewValidationErrMaps errs) 0).2 = sp.Scenarios.length
          · rw [if_pos hlen] at hmain
            have herr : ∃ err, lookupN ({ (scnCountFoldAux sp.Scenarios
                (buildStepErrs NewValidationErrMaps errs) 0).1 with
                SpecErrs := appendEntry (scnCountFoldAux sp.Scenarios
                  (buildStepErrs NewValidationErrMaps errs) 0).1.SpecErrs sp.Id
                  ((lookupN (scnCountFoldAux sp.Scenarios
                    (buildStepErrs NewValidationErrMaps errs) 0).1.ScenarioErrs
                    scn0.Id).getD []) } : ValidationErrMaps).StepErrs u.Id
                  = some err := by
              show ∃ err, lookupN (scnCountFoldAux sp.Scenarios
                (buildStepErrs NewValidationErrMaps errs) 0).1.StepErrs u.Id = some err
              rw [hfoldStep]
              have hs := (em0_step_iff errs u).2 ⟨e, he, hid⟩
              cases hx : lookupN (buildStepErrs NewValidationErrMaps errs).StepErrs
                  u.Id with
              | none => rw [hx] at hs; exact absurd hs (by simp)
              | some err => exact ⟨err, rfl⟩
            obtain ⟨err, herr⟩ := herr
            obtain ⟨l1, hk, hin⟩ := fillSpec_hit_spec sp _
              (sp.Contexts ++ sp.TearDownSteps) u err hu herr
            rw [← hmain] at hk
            exact ⟨l1, hk, List.ne_nil_of_mem hin⟩
          · rw [if_neg hlen] at hmain
            have herr : ∃ err, lookupN (scnCountFoldAux sp.Scenarios
                (buildStepErrs NewValidationErrMaps errs) 0).1.StepErrs u.Id
                  = some err := by
              rw [hfoldStep]
              have hs := (em0_step_iff errs u).2 ⟨e, he, hid⟩
              cases hx : lookupN (buildStepErrs NewValidationErrMaps errs).StepErrs
                  u.Id with
              | none => rw [hx] at hs; exact absurd hs (by simp)
              | some err => exact ⟨err, rfl⟩
            obtain ⟨err, herr⟩ := herr
            obtain ⟨l1, hk, hin⟩ := fillSpec_hit_spec sp _
              (sp.Contexts ++ sp.TearDownSteps) u err hu herr
            rw [← hmain] at hk
            exact ⟨l1, hk, List.ne_nil_of_mem hin⟩
        · have hlen := hAllIff.2 hall
          rw [if_pos hlen] at hmain
          have hfail0 : failsAny errs scn0.Steps := hall scn0 hmem0
          have hsome0 : (lookupN (scnCountFoldAux sp.Scenarios
              (buildStepErrs NewValidationErrMaps errs) 0).1.ScenarioErrs
              scn0.Id).isSome = true :=
            (hentry scn0 hmem0).2 ((em0_fails_iff errs scn0.Steps).2 hfail0)
          obtain ⟨l0, hl0⟩ : ∃ l0, lookupN (scnCountFoldAux sp.Scenarios
              (buildStepErrs NewValidationErrMaps errs) 0).1.ScenarioErrs scn0.Id
                = some l0 := by
            cases hx : lookupN (scnCountFoldAux sp.Scenarios
                (buildStepErrs NewValidationErrMaps errs) 0).1.ScenarioErrs scn0.Id with
            | none => rw [hx] at hsome0; exact Bool.noConfusion hsome0
            | some l0 => exact ⟨l0, rfl⟩
          have hl0ne : l0 ≠ [] := hfoldne scn0.Id l0 hl0
          obtain ⟨x, hx⟩ := List.exists_mem_of_ne_nil l0 hl0ne
          have hspec2 : ∃ lx, lookupN ({ (scnCountFoldAux sp.Scenarios
              (buildStepErrs NewValidationErrMaps errs) 0).1 with
              SpecErrs := appendEntry (scnCountFoldAux sp.Scenarios
                (buildStepErrs NewValidationErrMaps errs) 0).1.SpecErrs sp.Id
                ((lookupN (scnCountFoldAux sp.Scenarios
                  (buildStepErrs NewValidationErrMaps errs) 0).1.ScenarioErrs
                  scn0.Id).getD []) } : ValidationErrMaps).SpecErrs sp.Id = some lx ∧
                x ∈ lx := by
            refine ⟨l0, ?_, hx⟩
            show lookupN (appendEntry (scnCountFoldAux sp.Scenarios
              (buildStepErrs NewValidationErrMaps errs) 0).1.SpecErrs sp.Id
              ((lookupN (scnCountFoldAux sp.Scenarios
                (buildStepErrs NewValidationErrMaps errs) 0).1.ScenarioErrs
                scn0.Id).getD [])) sp.Id = some l0
            rw [lookupN_appendEntry_self, hfoldSpec, hl0]
            rfl
          obtain ⟨l1, hk, hin⟩ := (fillSpec_mem sp _
            (sp.Contexts ++ sp.TearDownSteps)).1 sp.Id x hspec2
          rw [← hmain] at hk
          exact ⟨l1, hk, List.ne_nil_of_mem hin⟩
    · intro hnc scn0x hh2 hall
      have hx0 : scn0x = scn0 := (Option.some.inj hh2).symm
      rw [hx0]
      have hlen := hAllIff.2 hall
      rw [if_pos hlen] at hmain
      have hfail0 : failsAny errs scn0.Steps := hall scn0 hmem0
      have hsome0 : (lookupN (scnCountFoldAux sp.Scenarios
          (buildStepErrs NewValidationErrMaps errs) 0).1.ScenarioErrs
          scn0.Id).isSome = true :=
        (hentry scn0 hmem0).2 ((em0_fails_iff errs scn0.Steps).2 hfail0)
      obtain ⟨l0, hl0⟩ : ∃ l0, lookupN (scnCountFoldAux sp.Scenarios
          (buildStepErrs NewValidationErrMaps errs) 0).1.ScenarioErrs scn0.Id
            = some l0 := by
        cases hx : lookupN (scnCountFoldAux sp.Scenarios
            (buildStepErrs NewValidationErrMaps errs) 0).1.ScenarioErrs scn0.Id with
        | none => rw [hx] at hsome0; exact Bool.noConfusion hsome0
        | some l0 => exact ⟨l0, rfl⟩
      have hfill : fillSpecErrors sp _ (sp.Contexts ++ sp.TearDownSteps) = _ :=
        hStepEq2 ({ (scnCountFoldAux sp.Scenarios
          (buildStepErrs NewValidationErrMaps errs) 0).1 with
          SpecErrs := appendEntry (scnCountFoldAux sp.Scenarios
            (buildStepErrs NewValidationErrMaps errs) 0).1.SpecErrs sp.Id
            ((lookupN (scnCountFoldAux sp.Scenarios
              (buildStepErrs NewValidationErrMaps errs) 0).1.ScenarioErrs
              scn0.Id).getD []) }) hfoldStep hnc
      rw [hfill] at hmain
      constructor
      · rw [hmain]
        show lookupN (appendEntry (scnCountFoldAux sp.Scenarios
            (buildStepErrs NewValidationErrMaps errs) 0).1.SpecErrs sp.Id
            ((lookupN (scnCountFoldAux sp.Scenarios
              (buildStepErrs NewValidationErrMaps errs) 0).1.ScenarioErrs
              scn0.Id).getD [])) sp.Id =
          lookupN (scnCountFoldAux sp.Scenarios
            (buildStepErrs NewValidationErrMaps errs) 0).1.ScenarioErrs scn0.Id
        rw [lookupN_appendEntry_self, hfoldSpec, hl0]
        rfl
      · rw [hmain]
        show lookupN (appendEntry (scnCountFoldAux sp.Scenarios
            (buildStepErrs NewValidationErrMaps errs) 0).1.SpecErrs sp.Id
            ((lookupN (scnCountFoldAux sp.Scenarios
              (buildStepErrs NewValidationErrMaps errs) 0).1.ScenarioErrs
              scn0.Id).getD [])) sp.Id ≠ none
        rw [lookupN_appendEntry_self]
        simp


/-- Witness for C3 at a concrete spec with three scenarios, all failing: the
Spec-level entry is non-empty and equals the first scenario's list. -/
theorem claim_C3_total_failure_rollup_witness :
    (∃ l, lookupN (getErrMap [(wSpecAll, [wE1, wE2, wE3])]).SpecErrs 13 = some l ∧
      l ≠ []) ∧
    lookupN (getErrMap [(wSpecAll, [wE1, wE2, wE3])]).SpecErrs 13 =
      lookupN (getErrMap [(wSpecAll, [wE1, wE2, wE3])]).ScenarioErrs 51 := by
  have h := claim_C3_total_failure_rollup wSpecAll [wE1, wE2, wE3] (by decide)
  have h2 := h.2 (by decide) wScn1 (by decide) (by decide)
  exact ⟨h.1.2 (Or.inr ⟨by decide, by decide⟩), h2.1⟩

/-- C4: a failing context/teardown step (found by `fillSpecErrors` through
concept expansion) appends its error to the Spec-level list, and — when it is
the only error among those steps — to the error list of every scenario that
has no Scenario-level entry yet. -/
theorem claim_C4_context_propagation (sp : Specification) (em : ValidationErrMaps)
    (t : Step) (err : StepValidationError)
    (hmem : t ∈ expandAll (sp.Contexts ++ sp.TearDownSteps))
    (hhit : lookupN em.StepErrs t.Id = some err)
    (huniq : ∀ u ∈ expandAll (sp.Contexts ++ sp.TearDownSteps),
      lookupN em.StepErrs u.Id = none ∨ lookupN em.StepErrs u.Id = some err) :
    (∃ l1, lookupN (fillSpecErrors sp em
        (sp.Contexts ++ sp.TearDownSteps)).SpecErrs sp.Id = some l1 ∧ err ∈ l1) ∧
    (∀ scn ∈ sp.Scenarios, lookupN em.ScenarioErrs scn.Id = none →
      ∃ l1, lookupN (fillSpecErrors sp em
        (sp.Contexts ++ sp.TearDownSteps)).ScenarioErrs scn.Id = some l1 ∧
        err ∈ l1) := by
  have huniq2 : ∀ u ∈ expandAll (sp.Contexts ++ sp.TearDownSteps), ∀ e,
      lookupN em.StepErrs u.Id = some e → e = err := by
    intro u hu e he
    rcases huniq u hu with h | h
    · rw [h] at he
      exact Option.noConfusion he
    · rw [h] at he
      exact (Option.some.inj he).symm
  constructor
  · exact fillSpec_hit_spec sp em _ t err hmem hhit
  · intro scn hscn hnone
    refine fillSpec_hit_scn sp em _ t err scn huniq2 hmem hhit hscn ?_
    intro l0 h
    rw [hnone] at h
    exact Option.noConfusion h

/-- Witness for C4 at a concrete spec: one failing context step in a spec
with two otherwise-passing scenarios lands in the Spec-level list and in
both scenarios' lists. -/
theorem claim_C4_context_propagation_witness :
    (∃ l1, lookupN (fillSpecErrors wSpecCtx wEmCtx
        (wSpecCtx.Contexts ++ wSpecCtx.TearDownSteps)).SpecErrs 12 = some l1 ∧
      wCtxErr ∈ l1) ∧
    (∃ l1, lookupN (fillSpecErrors wSpecCtx wEmCtx
        (wSpecCtx.Contexts ++ wSpecCtx.TearDownSteps)).ScenarioErrs 30 = some l1 ∧
      wCtxErr ∈ l1) ∧
    (∃ l1, lookupN (fillSpecErrors wSpecCtx wEmCtx
        (wSpecCtx.Contexts ++ wSpecCtx.TearDownSteps)).ScenarioErrs 31 = some l1 ∧
      wCtxErr ∈ l1) := by
  have h := claim_C4_context_propagation wSpecCtx wEmCtx wCtxStep wCtxErr
    (by decide) (by decide) (by decide)
  exact ⟨h.1, h.2 wScnX (by decide) (by decide), h.2 wScnY (by decide) (by decide)⟩

end GaugeValidation
